import Mathlib

/-!
# Verification of the DNS wire-format codec (`msg.go`)

A shallow embedding of the DNS message packer/unpacker of the repository's
`msg.go` (package `dns`), together with theorems settling the frozen claims
about it.

Modelling conventions:

* Go byte slices (`[]byte`) and Go strings (byte sequences) are modelled as
  `List Nat`, each entry standing for one byte.  Byte writes go through
  `List.set`, reads through `List.getD`/`(msg.drop a).take (b - a)` after the
  same bounds checks the source performs.
* Every Go codec routine `f(msg []byte, off int) (off1 int, ok bool)` becomes a
  Lean function returning the updated buffer (Go mutates in place), the new
  offset, and the `ok` flag.
* A Go runtime panic (slice access past the bounds, negative slice length) is
  modelled as `Option.none`; a normal return, even with `ok = false`, is
  `Option.some`.  Functions that provably cannot panic stay outside `Option`.
* `unpackDomainName` in the source is a `for` loop; it is embedded with an
  explicit fuel argument so that it stays structurally recursive and
  executable.  `none` from fuel exhaustion is provably unreachable for the
  fuel chosen by `unpackDomainName` (see `unpackDomainNameAux_ne_none`).
* The struct types `Header`, `Question`, `RR_Header` and the per-type resource
  records walked by the reflection-driven `packStructValue`/`unpackStructValue`
  are declared in a repository file that is not part of `src/`; they are
  modelled from the spec (§3, §4.5, §6) and each such definition carries a
  `Modelled from the spec:` comment.
-/

set_option maxRecDepth 100000

namespace DnsCodec

/-- Byte buffers and byte strings: one `Nat` per byte. -/
abbrev Bytes := List Nat

/-- Sequential byte stores `msg[off] = b₀; msg[off+1] = b₁; ...` (Go assigns
one byte at a time; `List.set` ignores out-of-range writes, which the source
rules out by its bounds checks before writing). -/
def writeBytes (msg : Bytes) (off : Nat) : Bytes → Bytes
  | [] => msg
  | b :: bs => writeBytes (msg.set off b) (off + 1) bs

/-- Go slice expression `msg[a:b]` (bounds are checked at each use site,
mirroring the source; an unchecked use models a potential panic). -/
def sliceB (msg : Bytes) (a b : Nat) : Bytes := (msg.drop a).take (b - a)

/-! ## Name codec (`packDomainName`, `unpackDomainName`, msg.go lines 95–197) -/

/-- The character loop of `packDomainName` (msg.go lines 110–125): walk the
canonicalised name, `cur` holding the bytes of the label read so far
(`s[begin:i]` in the source); each dot emits a length byte followed by the
label bytes.  A label of 64 bytes or more fails with `(len(msg), false)`. -/
def packSegs (msg : Bytes) (off : Nat) (cur : Bytes) : Bytes → Bytes × Nat × Bool
  | [] => (msg, off, true)
  | b :: rest =>
    if b = 46 then
      if 64 ≤ cur.length then (msg, msg.length, false)
      else packSegs (writeBytes msg off (cur.length :: cur)) (off + 1 + cur.length) [] rest
    else packSegs msg off (cur ++ [b]) rest

/-- `packDomainName(s, msg, off)` (msg.go lines 95–133): canonicalise by
appending a trailing dot if absent, check the total space (`len(s)+1` bytes),
emit length-prefixed labels, and terminate with a zero byte (the root name
`"."` emits exactly one zero byte and skips the terminator). -/
def packDomainName (s : Bytes) (msg : Bytes) (off : Nat) : Bytes × Nat × Bool :=
  let s' := if s.getLast? = some 46 then s else s ++ [46]
  let tot := s'.length + 1
  if off + tot > msg.length then (msg, msg.length, false)
  else
    let r := packSegs msg off [] s'
    if r.2.2 = true then
      -- root label is special: "." emits no terminating zero beyond its own byte
      if s' = [46] then (r.1, r.2.1, true)
      else (r.1.set r.2.1 0, r.2.1 + 1, true)
    else r

/-- The loop of `unpackDomainName` (msg.go lines 148–197), with fuel.  `off` is
the index of the next length byte, `s` the labels decoded so far (dotted), `ptr`
the number of compression pointers followed, `off1` the recorded return offset.
The source reads `c := msg[off]; off++` and then branches on `c & 0xC0`; here
the post-increment offset is written `off + 1`.  `none` means the fuel ran out,
which `unpackDomainNameAux_ne_none` shows cannot happen for the fuel used by
`unpackDomainName`. -/
def unpackDomainNameAux (msg : Bytes) : Nat → Nat → Bytes → Nat → Nat → Option (Bytes × Nat × Bool)
  | 0, _, _, _, _ => none
  | fuel + 1, off, s, ptr, off1 =>
    if msg.length ≤ off then some ([], msg.length, false)
    else
      -- the source reads c := int(msg[off]); off++ and branches on c & 0xC0;
      -- `msg.getD off 0` stands for c throughout
      if msg.getD off 0 &&& 0xC0 = 0x00 then
        -- literal label, or end of name when c = 0
        if msg.getD off 0 = 0 then some (s, if ptr = 0 then off + 1 else off1, true)
        else if msg.length < off + 1 + msg.getD off 0 then some ([], msg.length, false)
        else unpackDomainNameAux msg fuel (off + 1 + msg.getD off 0)
          (s ++ sliceB msg (off + 1) (off + 1 + msg.getD off 0) ++ [46]) ptr off1
      else if msg.getD off 0 &&& 0xC0 = 0xC0 then
        -- compression pointer: 14-bit offset from msg[0]
        if msg.length ≤ off + 1 then some ([], msg.length, false)
        else if 10 < ptr + 1 then some ([], msg.length, false)
        else unpackDomainNameAux msg fuel (((msg.getD off 0 ^^^ 0xC0) <<< 8) ||| msg.getD (off + 1) 0)
          s (ptr + 1) (if ptr = 0 then off + 2 else off1)
      else
        -- 0x80 and 0x40 are reserved
        some ([], msg.length, false)

/-- Fuel that provably suffices for every buffer: the loop follows at most 10
pointers, and between pointers the offset strictly advances. -/
def dnFuel (msg : Bytes) : Nat := 11 * (msg.length + 2) + msg.length + 2

/-- `unpackDomainName(msg, off)` (msg.go lines 148–197). -/
def unpackDomainName (msg : Bytes) (off : Nat) : Option (Bytes × Nat × Bool) :=
  unpackDomainNameAux msg (dnFuel msg) off [] 0 0

/-- The loop measure dominates the fuel consumption: with fuel above
`(11 - ptr) * (len + 2) + (len + 1 - off)` the loop never exhausts it. -/
theorem unpackDomainNameAux_ne_none (msg : Bytes) :
    ∀ fuel off s ptr off1,
      (11 - ptr) * (msg.length + 2) + (msg.length + 1 - off) < fuel →
      unpackDomainNameAux msg fuel off s ptr off1 ≠ none := by
  intro fuel
  induction fuel with
  | zero => intro off s ptr off1 h; exact absurd h (by omega)
  | succ fuel ih =>
    intro off s ptr off1 h
    rw [unpackDomainNameAux]
    by_cases h0 : msg.length ≤ off
    · rw [if_pos h0]; intro hc; exact Option.noConfusion hc
    rw [if_neg h0]
    by_cases h1 : msg.getD off 0 &&& 0xC0 = 0x00
    · rw [if_pos h1]
      by_cases h2 : msg.getD off 0 = 0
      · rw [if_pos h2]; intro hc; exact Option.noConfusion hc
      rw [if_neg h2]
      by_cases h3 : msg.length < off + 1 + msg.getD off 0
      · rw [if_pos h3]; intro hc; exact Option.noConfusion hc
      rw [if_neg h3]
      apply ih
      omega
    rw [if_neg h1]
    by_cases h4 : msg.getD off 0 &&& 0xC0 = 0xC0
    · rw [if_pos h4]
      by_cases h5 : msg.length ≤ off + 1
      · rw [if_pos h5]; intro hc; exact Option.noConfusion hc
      rw [if_neg h5]
      by_cases h6 : 10 < ptr + 1
      · rw [if_pos h6]; intro hc; exact Option.noConfusion hc
      rw [if_neg h6]
      apply ih
      have hsplit : (11 - ptr) * (msg.length + 2)
          = (11 - (ptr + 1)) * (msg.length + 2) + (msg.length + 2) := by
        have h7 : 11 - ptr = (11 - (ptr + 1)) + 1 := by omega
        rw [h7]; ring
      omega
    rw [if_neg h4]; intro hc; exact Option.noConfusion hc

/-- `unpackDomainName` never runs out of fuel: the embedding is total on every
buffer and starting offset. -/
theorem unpackDomainName_ne_none (msg : Bytes) (off : Nat) :
    unpackDomainName msg off ≠ none := by
  apply unpackDomainNameAux_ne_none
  unfold dnFuel
  omega

/-! ## Buffer write/read reasoning

`writeBytes` is the sequential store; `region msg off w` says the buffer `msg`
holds exactly the bytes `w` starting at offset `off`.  These are the workhorse
notions for proving what `Pack` writes and what `Unpack` reads back. -/

theorem length_writeBytes (w : Bytes) : ∀ (msg : Bytes) (off : Nat),
    (writeBytes msg off w).length = msg.length := by
  induction w with
  | nil => intro msg off; rfl
  | cons b t ih => intro msg off; rw [writeBytes, ih, List.length_set]

theorem writeBytes_append (w1 w2 : Bytes) : ∀ (msg : Bytes) (off : Nat),
    writeBytes msg off (w1 ++ w2)
      = writeBytes (writeBytes msg off w1) (off + w1.length) w2 := by
  induction w1 with
  | nil => intro msg off; rfl
  | cons b t ih =>
    intro msg off
    rw [List.cons_append, writeBytes, writeBytes, ih]
    rw [show off + 1 + t.length = off + (t.length + 1) from by omega, List.length_cons]

theorem getElem?_writeBytes (w : Bytes) : ∀ (msg : Bytes) (off : Nat),
    off + w.length ≤ msg.length → ∀ i,
    (writeBytes msg off w)[i]? = if off ≤ i ∧ i < off + w.length then w[i - off]? else msg[i]? := by
  induction w with
  | nil =>
    intro msg off _ i
    rw [writeBytes, if_neg (by rw [List.length_nil]; omega)]
  | cons b t ih =>
    intro msg off h i
    have hlen : off + t.length + 1 ≤ msg.length := by
      rw [List.length_cons] at h; omega
    rw [writeBytes, ih _ (off + 1) (by rw [List.length_set]; omega) i]
    by_cases h1 : off + 1 ≤ i ∧ i < off + 1 + t.length
    · rw [if_pos h1, if_pos (by rw [List.length_cons]; omega)]
      have h2 : i - off = (i - (off + 1)) + 1 := by omega
      rw [h2, List.getElem?_cons_succ]
    · rw [if_neg h1]
      by_cases h3 : i = off
      · subst h3
        rw [List.getElem?_set_self (by omega), if_pos (by rw [List.length_cons]; omega)]
        rw [Nat.sub_self, List.getElem?_cons_zero]
      · rw [List.getElem?_set_ne (by omega), if_neg (by rw [List.length_cons]; omega)]

/-- `region msg off w`: the buffer `msg` holds exactly the bytes `w` at
offsets `[off, off + w.length)`. -/
def region (msg : Bytes) (off : Nat) (w : Bytes) : Prop :=
  off + w.length ≤ msg.length ∧ sliceB msg off (off + w.length) = w

theorem region.bound {msg : Bytes} {off : Nat} {w : Bytes} (h : region msg off w) :
    off + w.length ≤ msg.length := h.1

theorem region.slice {msg : Bytes} {off : Nat} {w : Bytes} (h : region msg off w) :
    sliceB msg off (off + w.length) = w := h.2

theorem region_of_getElem? {msg : Bytes} {off : Nat} {w : Bytes}
    (h1 : off + w.length ≤ msg.length)
    (h2 : ∀ i, i < w.length → msg[off + i]? = w[i]?) : region msg off w := by
  refine ⟨h1, ?_⟩
  unfold sliceB
  rw [show off + w.length - off = w.length from by omega]
  apply List.ext_getElem?
  intro i
  by_cases hi : i < w.length
  · rw [List.getElem?_take_of_lt hi, List.getElem?_drop, h2 i hi]
  · rw [List.getElem?_take_eq_none (by omega)]
    exact (List.getElem?_eq_none (by omega)).symm

theorem region.getElem? {msg : Bytes} {off : Nat} {w : Bytes} (h : region msg off w) :
    ∀ i, i < w.length → msg[off + i]? = w[i]? := by
  intro i hi
  have hs := h.2
  unfold sliceB at hs
  rw [show off + w.length - off = w.length from by omega] at hs
  calc msg[off + i]? = (msg.drop off)[i]? := by rw [List.getElem?_drop]
    _ = ((msg.drop off).take w.length)[i]? := by rw [List.getElem?_take_of_lt hi]
    _ = w[i]? := by rw [hs]

theorem region.getD {msg : Bytes} {off : Nat} {w : Bytes} (h : region msg off w) :
    ∀ i, i < w.length → msg.getD (off + i) 0 = w.getD i 0 := by
  intro i hi
  rw [List.getD_eq_getElem?_getD, List.getD_eq_getElem?_getD, h.getElem? i hi]

theorem region_of_writeBytes {msg : Bytes} {off : Nat} {w : Bytes}
    (h : off + w.length ≤ msg.length) : region (writeBytes msg off w) off w := by
  apply region_of_getElem?
  · rw [length_writeBytes]; exact h
  · intro i hi
    rw [getElem?_writeBytes w msg off h, if_pos (by omega),
      show off + i - off = i from by omega]

theorem region_writeBytes_preserve {msg : Bytes} {off : Nat} {w : Bytes}
    (hr : region msg off w) {off2 : Nat} {w2 : Bytes}
    (hle : off + w.length ≤ off2) (h2 : off2 + w2.length ≤ msg.length) :
    region (writeBytes msg off2 w2) off w := by
  apply region_of_getElem?
  · rw [length_writeBytes]; exact hr.bound
  · intro i hi
    rw [getElem?_writeBytes w2 msg off2 h2, if_neg (by omega)]
    exact hr.getElem? i hi

theorem region_append {msg : Bytes} {off : Nat} {w1 w2 : Bytes} :
    region msg off (w1 ++ w2) ↔ region msg off w1 ∧ region msg (off + w1.length) w2 := by
  constructor
  · intro h
    have hb := h.bound
    rw [List.length_append] at hb
    constructor
    · apply region_of_getElem? (by omega)
      intro i hi
      rw [h.getElem? i (by rw [List.length_append]; omega),
        List.getElem?_append_left hi]
    · apply region_of_getElem? (by omega)
      intro i hi
      have := h.getElem? (w1.length + i) (by rw [List.length_append]; omega)
      rw [List.getElem?_append_right (by omega),
        show w1.length + i - w1.length = i from by omega] at this
      rw [show off + w1.length + i = off + (w1.length + i) from by omega]
      exact this
  · intro ⟨ha, hb⟩
    apply region_of_getElem?
    · rw [List.length_append]
      have := hb.bound; omega
    · intro i hi
      rw [List.length_append] at hi
      by_cases hlt : i < w1.length
      · rw [List.getElem?_append_left hlt]
        exact ha.getElem? i hlt
      · rw [List.getElem?_append_right (by omega)]
        have := hb.getElem? (i - w1.length) (by omega)
        rw [show off + w1.length + (i - w1.length) = off + i from by omega] at this
        exact this

theorem region_take {msg : Bytes} {off n : Nat} {w : Bytes}
    (h : region msg off w) (hn : off + w.length ≤ n) :
    region (msg.take n) off w := by
  apply region_of_getElem?
  · rw [List.length_take]
    have := h.bound; omega
  · intro i hi
    rw [List.getElem?_take_of_lt (by omega)]
    exact h.getElem? i hi

theorem region_refl (w : Bytes) : region w 0 w := by
  apply region_of_getElem? (by omega)
  intro i _
  rw [Nat.zero_add]

theorem writeBytes_overwrite {msg : Bytes} {off : Nat} {w1 w2 : Bytes}
    (hlen : w1.length ≤ w2.length) (h : off + w2.length ≤ msg.length) :
    writeBytes (writeBytes msg off w1) off w2 = writeBytes msg off w2 := by
  apply List.ext_getElem?
  intro i
  have h1 : off + w1.length ≤ msg.length := by omega
  rw [getElem?_writeBytes w2 msg off h, getElem?_writeBytes w2 (writeBytes msg off w1) off
    (by rw [length_writeBytes]; exact h)]
  by_cases hw : off ≤ i ∧ i < off + w2.length
  · rw [if_pos hw, if_pos hw]
  · rw [if_neg hw, if_neg hw, getElem?_writeBytes w1 msg off h1, if_neg (by omega)]

theorem sliceB_of_region {msg : Bytes} {off : Nat} {w : Bytes} (h : region msg off w) :
    sliceB msg off (off + w.length) = w := h.2

/-! ## Names as label lists

A canonical DNS name is the dotted form of a list of labels.  `wireN` is its
wire encoding (length-prefixed labels, terminating zero), exactly what
`packDomainName` emits and `unpackDomainName` consumes when no compression
pointer occurs. -/

/-- Dotted canonical form of a label list: every label is followed by a dot. -/
def dotted : List Bytes → Bytes
  | [] => []
  | l :: L => l ++ 46 :: dotted L

/-- Wire form of a label list: length byte, label bytes, …, terminating zero. -/
def wireN (L : List Bytes) : Bytes := (L.map (fun l => l.length :: l)).flatten ++ [0]

/-- A well-formed label: nonempty, at most 63 bytes, bytes below 256, no dot. -/
def wfLabel (l : Bytes) : Prop :=
  0 < l.length ∧ l.length ≤ 63 ∧ ∀ b ∈ l, b < 256 ∧ b ≠ 46

def wfLabels (L : List Bytes) : Prop := ∀ l ∈ L, wfLabel l

/-- A valid non-root name: dotted form of a nonempty well-formed label list. -/
def validName (s : Bytes) : Prop := ∃ L, L ≠ [] ∧ wfLabels L ∧ s = dotted L

theorem length_wireN (L : List Bytes) : (wireN L).length = (dotted L).length + 1 := by
  induction L with
  | nil => rfl
  | cons l L ih =>
    simp only [wireN, dotted, List.map_cons, List.flatten_cons, List.length_append,
      List.length_cons, List.length_nil] at *
    omega

theorem wireN_cons (l : Bytes) (L : List Bytes) :
    wireN (l :: L) = (l.length :: l) ++ wireN L := by
  simp [wireN, List.map_cons, List.flatten_cons, List.append_assoc]

theorem dotted_eq_concat {L : List Bytes} (h : L ≠ []) :
    ∃ ys, dotted L = ys ++ [46] := by
  induction L with
  | nil => exact absurd rfl h
  | cons l L ih =>
    by_cases hL : L = []
    · subst hL
      exact ⟨l, rfl⟩
    · obtain ⟨ys, hys⟩ := ih hL
      refine ⟨l ++ 46 :: ys, ?_⟩
      rw [dotted, hys, List.append_assoc, List.cons_append]

theorem getLast?_dotted {L : List Bytes} (h : L ≠ []) : (dotted L).getLast? = some 46 := by
  obtain ⟨ys, hys⟩ := dotted_eq_concat h
  rw [hys, List.getLast?_concat]

theorem dotted_ne_nil {L : List Bytes} (h : L ≠ []) : dotted L ≠ [] := by
  obtain ⟨ys, hys⟩ := dotted_eq_concat h
  rw [hys]
  simp

/-- Bytes below 64 have the two top bits of a length byte clear. -/
theorem and192_eq_zero {n : Nat} (h : n ≤ 63) : n &&& 192 = 0 := by
  apply Nat.eq_of_testBit_eq
  intro i
  rw [Nat.testBit_and, Nat.zero_testBit]
  by_cases hi : i < 6
  · have h192 : (192 : Nat).testBit i = false := by interval_cases i <;> decide
    rw [h192, Bool.and_false]
  · have hn : n.testBit i = false := by
      apply Nat.testBit_lt_two_pow
      calc n < 64 := by omega
        _ = 2 ^ 6 := by norm_num
        _ ≤ 2 ^ i := Nat.pow_le_pow_right (by norm_num) (by omega)
    rw [hn, Bool.false_and]

/-! ### `packDomainName` writes `wireN` -/

/-- Walking the bytes of a dot-free chunk just accumulates it into `cur`. -/
theorem packSegs_accum (l : Bytes) : ∀ (msg : Bytes) (off : Nat) (cur rest : Bytes),
    (∀ b ∈ l, b ≠ 46) →
    packSegs msg off cur (l ++ rest) = packSegs msg off (cur ++ l) rest := by
  induction l with
  | nil => intro msg off cur rest _; rw [List.nil_append, List.append_nil]
  | cons b t ih =>
    intro msg off cur rest h
    have hb : b ≠ 46 := h b (List.mem_cons_self b t)
    rw [List.cons_append, packSegs, if_neg hb, ih _ _ _ _ (fun x hx => h x (List.mem_cons_of_mem b hx))]
    rw [List.append_assoc, List.singleton_append]

/-- The main loop of `packDomainName` on a well-formed dotted name writes the
length-prefixed labels (everything of `wireN` except the terminating zero). -/
theorem packSegs_dotted : ∀ (L : List Bytes) (msg : Bytes) (off : Nat),
    wfLabels L → off + (wireN L).length ≤ msg.length →
    packSegs msg off [] (dotted L)
      = (writeBytes msg off ((L.map (fun l => l.length :: l)).flatten),
          off + (dotted L).length, true) := by
  intro L
  induction L with
  | nil =>
    intro msg off _ _
    rw [dotted, packSegs, List.map_nil, List.flatten_nil, writeBytes]
    rfl
  | cons l L ih =>
    intro msg off hwf hle
    obtain ⟨hl1, hl2, hl3⟩ := hwf l (List.mem_cons_self l L)
    have hndot : ∀ b ∈ l, b ≠ 46 := fun b hb => (hl3 b hb).2
    rw [dotted, packSegs_accum l msg off [] _ hndot, List.nil_append, packSegs,
      if_pos rfl, if_neg (by omega)]
    have hlen : (wireN (l :: L)).length = (1 + l.length) + (wireN L).length := by
      rw [wireN_cons, List.length_append, List.length_cons]; omega
    rw [ih (writeBytes msg off (l.length :: l)) (off + 1 + l.length)
      (fun x hx => hwf x (List.mem_cons_of_mem l hx))
      (by rw [length_writeBytes]; omega)]
    rw [List.map_cons, List.flatten_cons]
    rw [show writeBytes (writeBytes msg off (l.length :: l)) (off + 1 + l.length)
          (L.map (fun l => l.length :: l)).flatten
        = writeBytes msg off ((l.length :: l) ++ (L.map (fun l => l.length :: l)).flatten) by
      rw [writeBytes_append]
      rw [List.length_cons]
      rw [show off + (l.length + 1) = off + 1 + l.length from by omega]]
    rw [List.length_append, List.length_cons]
    rw [show off + 1 + l.length + (dotted L).length = off + (l.length + ((dotted L).length + 1)) from by omega]

/-- `packDomainName` on a valid name writes exactly `wireN L` and advances to
the end of the name. -/
theorem packDomainName_eq {L : List Bytes} (hne : L ≠ []) (hwf : wfLabels L)
    {msg : Bytes} {off : Nat} (hle : off + (wireN L).length ≤ msg.length) :
    packDomainName (dotted L) msg off
      = (writeBytes msg off (wireN L), off + (wireN L).length, true) := by
  have hlast : (dotted L).getLast? = some 46 := getLast?_dotted hne
  have hlen := length_wireN L
  unfold packDomainName
  simp only []
  rw [if_pos hlast]
  rw [if_neg (by omega)]
  rw [packSegs_dotted L msg off hwf hle]
  have hnotroot : dotted L ≠ [46] := by
    rcases L with _ | ⟨l, L'⟩
    · exact absurd rfl hne
    · obtain ⟨hl1, _, _⟩ := hwf l (List.mem_cons_self l L')
      intro hc
      rw [dotted] at hc
      have : (l ++ 46 :: dotted L').length = 1 := by rw [hc]; rfl
      rw [List.length_append, List.length_cons] at this
      omega
  rw [if_pos rfl, if_neg hnotroot]
  have hset : (writeBytes msg off ((L.map (fun l => l.length :: l)).flatten)).set
        (off + (dotted L).length) 0
      = writeBytes msg off (wireN L) := by
    have : ((L.map (fun l => l.length :: l)).flatten).length = (dotted L).length := by
      have := length_wireN L
      rw [wireN, List.length_append, List.length_cons, List.length_nil] at this
      omega
    rw [wireN, writeBytes_append]
    rw [this]
    rfl
  rw [hset, hlen, Nat.add_assoc]

/-! ### `unpackDomainName` reads `wireN` back -/

theorem unpackDomainNameAux_wireN : ∀ (L : List Bytes) (fuel : Nat) (msg : Bytes) (off : Nat)
    (s0 : Bytes) (d : Nat),
    wfLabels L → region msg off (wireN L) → (wireN L).length ≤ fuel →
    unpackDomainNameAux msg fuel off s0 0 d
      = some (s0 ++ dotted L, off + (wireN L).length, true) := by
  intro L
  induction L with
  | nil =>
    intro fuel msg off s0 d _ hr hf
    have hb : off + 1 ≤ msg.length := hr.bound
    have h0 : msg.getD off 0 = 0 := by
      have := hr.getD 0 (by decide)
      rw [Nat.add_zero] at this
      exact this
    rcases fuel with _ | fuel
    · exact absurd hf (by decide)
    rw [unpackDomainNameAux, if_neg (by omega), h0, if_pos (by decide), if_pos rfl,
      if_pos rfl, dotted, List.append_nil]
    rfl
  | cons l L ih =>
    intro fuel msg off s0 d hwf hr hf
    obtain ⟨hl1, hl2, hl3⟩ := hwf l (List.mem_cons_self l L)
    rw [wireN_cons] at hr hf
    have hsplit := region_append.mp hr
    have hhead := hsplit.1
    have htail := hsplit.2
    rw [List.length_cons] at htail
    have hsplit2 : region msg off [l.length] ∧ region msg (off + 1) l := by
      have : (l.length :: l : Bytes) = [l.length] ++ l := rfl
      rw [this] at hhead
      have h2 := region_append.mp hhead
      exact ⟨h2.1, by have := h2.2; rw [List.length_singleton] at this; exact this⟩
    have hb : off + 1 + l.length ≤ msg.length := by
      have := hsplit2.2.bound; omega
    have hgetD : msg.getD off 0 = l.length := by
      have := hsplit2.1.getD 0 (by simp)
      rw [Nat.add_zero] at this
      exact this
    rcases fuel with _ | fuel
    · exact absurd hf (by simp)
    rw [unpackDomainNameAux, if_neg (by omega), hgetD, if_pos (and192_eq_zero hl2),
      if_neg (by omega), if_neg (by omega),
      sliceB_of_region hsplit2.2]
    rw [ih fuel msg (off + 1 + l.length) (s0 ++ l ++ [46]) d
      (fun x hx => hwf x (List.mem_cons_of_mem l hx))
      (by rw [show off + 1 + l.length = off + (l.length + 1) from by omega]; exact htail)
      (by rw [List.length_append, List.length_cons] at hf; omega)]
    rw [dotted, wireN_cons, List.length_append, List.length_cons]
    rw [show s0 ++ l ++ [46] ++ dotted L = s0 ++ (l ++ 46 :: dotted L) by
      simp [List.append_assoc]]
    rw [show off + 1 + l.length + (wireN L).length = off + (l.length + 1 + (wireN L).length) from by omega]

/-- `unpackDomainName` decodes a plain (pointer-free) wire name in place. -/
theorem unpackDomainName_eq {L : List Bytes} {msg : Bytes} {off : Nat}
    (hwf : wfLabels L) (hr : region msg off (wireN L)) :
    unpackDomainName msg off = some (dotted L, off + (wireN L).length, true) := by
  rw [unpackDomainName]
  have := unpackDomainNameAux_wireN L (dnFuel msg) msg off [] 0 hwf hr
    (by have := hr.bound; rw [dnFuel]; omega)
  rw [List.nil_append] at this
  exact this

/-! ## Primitive codec

The `*reflect.UintValue` cases of `packStructValue` (msg.go lines 252–279) and
`unpackStructValue` (lines 379–404), the counted-string cases (lines 306–317
and 450–461), the `A`/`AAAA` slice cases (lines 229–245 and 347–362), and the
helper `unpackUint16` (lines 470–474). -/

def packU8 (v : Nat) (msg : Bytes) (off : Nat) : Bytes × Nat × Bool :=
  if msg.length < off + 1 then (msg, msg.length, false)
  else (writeBytes msg off [v % 256], off + 1, true)

/-- Big-endian bytes of a 16-bit value, as `packStructValue` writes them:
`byte(i >> 8)`, `byte(i)`. -/
def w16 (v : Nat) : Bytes := [(v >>> 8) % 256, v % 256]

/-- Big-endian bytes of a 32-bit value. -/
def w32 (v : Nat) : Bytes :=
  [(v >>> 24) % 256, (v >>> 16) % 256, (v >>> 8) % 256, v % 256]

def packU16 (v : Nat) (msg : Bytes) (off : Nat) : Bytes × Nat × Bool :=
  if msg.length < off + 2 then (msg, msg.length, false)
  else (writeBytes msg off (w16 v), off + 2, true)

def packU32 (v : Nat) (msg : Bytes) (off : Nat) : Bytes × Nat × Bool :=
  if msg.length < off + 4 then (msg, msg.length, false)
  else (writeBytes msg off (w32 v), off + 4, true)

/-- `unpackUint16` (msg.go lines 470–474): reads two bytes big-endian; the
bounds were checked by the caller. -/
def unpackUint16 (msg : Bytes) (off : Nat) : Nat × Nat :=
  ((msg.getD off 0 <<< 8) ||| msg.getD (off + 1) 0, off + 2)

def unpackU8 (msg : Bytes) (off : Nat) : Nat × Nat × Bool :=
  if msg.length < off + 1 then (0, msg.length, false)
  else (msg.getD off 0, off + 1, true)

def unpackU16 (msg : Bytes) (off : Nat) : Nat × Nat × Bool :=
  if msg.length < off + 2 then (0, msg.length, false)
  else ((unpackUint16 msg off).1, (unpackUint16 msg off).2, true)

def unpackU32 (msg : Bytes) (off : Nat) : Nat × Nat × Bool :=
  if msg.length < off + 4 then (0, msg.length, false)
  else ((msg.getD off 0 <<< 24) ||| (msg.getD (off + 1) 0 <<< 16) |||
      (msg.getD (off + 2) 0 <<< 8) ||| msg.getD (off + 3) 0, off + 4, true)

/-- Counted-string pack (tag `""`): one length byte then the bytes. -/
def packCountedString (s : Bytes) (msg : Bytes) (off : Nat) : Bytes × Nat × Bool :=
  if 255 < s.length ∨ msg.length < off + 1 + s.length then (msg, msg.length, false)
  else (writeBytes msg off (s.length :: s), off + 1 + s.length, true)

/-- Counted-string unpack (tag `""`). -/
def unpackCountedString (msg : Bytes) (off : Nat) : Bytes × Nat × Bool :=
  if msg.length ≤ off ∨ msg.length < off + 1 + msg.getD off 0 then ([], msg.length, false)
  else (sliceB msg (off + 1) (off + 1 + msg.getD off 0), off + 1 + msg.getD off 0, true)

/-- `A` slice pack: the source writes the first four entries of the stored IP
(reflect `Elem(j)` panics — `none` — when fewer are stored). -/
def packIPv4 (ip : Bytes) (msg : Bytes) (off : Nat) : Option (Bytes × Nat × Bool) :=
  if 4 < ip.length ∨ msg.length < off + ip.length then some (msg, msg.length, false)
  else if ip.length < 4 then none
  else some (writeBytes msg off (ip.take 4), off + 4, true)

/-- `A` slice unpack: `net.IPv4(b0,b1,b2,b3)`.  The Go value is the 16-byte
IPv4-mapped form; we model IPs by their 4-byte IPv4 content (`net.IP.Equal`
identifies the two representations). -/
def unpackIPv4 (msg : Bytes) (off : Nat) : Bytes × Nat × Bool :=
  if msg.length < off + 4 then ([], msg.length, false)
  else (sliceB msg off (off + 4), off + 4, true)

/-- `AAAA` slice pack (16 bytes, `Elem(j)` panic modelled as `none`). -/
def packIPv6 (ip : Bytes) (msg : Bytes) (off : Nat) : Option (Bytes × Nat × Bool) :=
  if 16 < ip.length ∨ msg.length < off + ip.length then some (msg, msg.length, false)
  else if ip.length < 16 then none
  else some (writeBytes msg off (ip.take 16), off + 16, true)

/-- `AAAA` slice unpack: 16 raw bytes. -/
def unpackIPv6 (msg : Bytes) (off : Nat) : Bytes × Nat × Bool :=
  if msg.length < off + 16 then ([], msg.length, false)
  else (sliceB msg off (off + 16), off + 16, true)

/-! ### Big-endian arithmetic bridges -/

theorem or_eq_add_pow {k M a b : Nat} (hM : M = 2 ^ k) (hb : b < M) :
    (a * M) ||| b = a * M + b := by
  subst hM
  rw [Nat.mul_comm a (2 ^ k)]
  exact (Nat.mul_add_lt_is_or hb a).symm

theorem be16_eq {v : Nat} (hv : v < 65536) :
    (((v >>> 8) % 256) <<< 8) ||| (v % 256) = v := by
  have e8 : v >>> 8 = v / 256 := by
    rw [Nat.shiftRight_eq_div_pow]
  have h2 : v / 256 % 256 = v / 256 := Nat.mod_eq_of_lt (by omega)
  rw [e8, h2, Nat.shiftLeft_eq]
  rw [show (2:Nat) ^ 8 = 256 from by norm_num]
  rw [or_eq_add_pow (k := 8) (by norm_num) (by omega)]
  omega

theorem be32_eq {v : Nat} (hv : v < 4294967296) :
    ((v >>> 24) % 256) <<< 24 ||| ((v >>> 16) % 256) <<< 16 |||
      ((v >>> 8) % 256) <<< 8 ||| (v % 256) = v := by
  have e24 : v >>> 24 = v / 16777216 := by
    rw [Nat.shiftRight_eq_div_pow]
  have e16 : v >>> 16 = v / 65536 := by
    rw [Nat.shiftRight_eq_div_pow]
  have e8 : v >>> 8 = v / 256 := by
    rw [Nat.shiftRight_eq_div_pow]
  have h24 : v / 16777216 % 256 = v / 16777216 := Nat.mod_eq_of_lt (by omega)
  rw [e24, e16, e8, h24, Nat.shiftLeft_eq, Nat.shiftLeft_eq, Nat.shiftLeft_eq]
  rw [show (2:Nat) ^ 24 = 16777216 from by norm_num,
    show (2:Nat) ^ 16 = 65536 from by norm_num,
    show (2:Nat) ^ 8 = 256 from by norm_num]
  rw [or_eq_add_pow (k := 24) (by norm_num)
    (by have : v / 65536 % 256 < 256 := Nat.mod_lt _ (by norm_num); omega)]
  rw [show v / 16777216 * 16777216 + v / 65536 % 256 * 65536
      = (v / 16777216 * 256 + v / 65536 % 256) * 65536 from by ring]
  rw [or_eq_add_pow (k := 16) (by norm_num)
    (by have : v / 256 % 256 < 256 := Nat.mod_lt _ (by norm_num); omega)]
  rw [show (v / 16777216 * 256 + v / 65536 % 256) * 65536 + v / 256 % 256 * 256
      = (v / 16777216 * 65536 + v / 65536 % 256 * 256 + v / 256 % 256) * 256 from by ring]
  rw [or_eq_add_pow (k := 8) (by norm_num) (by have : v % 256 < 256 := Nat.mod_lt _ (by norm_num); omega)]
  omega

/-- One `if cond { b |= mask }` step of `Msg.Pack`'s flag building. -/
def setFlag (b : Nat) (cond : Bool) (mask : Nat) : Nat :=
  if cond then b ||| mask else b

/-- Setting a single clear bit in the middle of a sum. -/
theorem or_mid {j M a lo : Nat} (hM : M = 2 ^ j) (hlo : lo < M) :
    (M * (2 * a) + lo) ||| M = M * (2 * a + 1) + lo := by
  subst hM
  have h1 : 2 ^ j * (2 * a) + lo = 2 ^ j * (2 * a) ||| lo := Nat.mul_add_lt_is_or hlo _
  have h2 : 2 ^ (j + 1) * a + 2 ^ j = 2 ^ (j + 1) * a ||| 2 ^ j :=
    Nat.mul_add_lt_is_or (Nat.pow_lt_pow_succ (by norm_num)) a
  have h3 : 2 ^ (j + 1) * a = 2 ^ j * (2 * a) := by ring
  rw [h3] at h2
  calc (2 ^ j * (2 * a) + lo) ||| 2 ^ j
      = (2 ^ j * (2 * a) ||| lo) ||| 2 ^ j := by rw [← h1]
    _ = (2 ^ j * (2 * a) ||| 2 ^ j) ||| lo := by
        rw [Nat.lor_assoc, Nat.lor_comm lo, ← Nat.lor_assoc]
    _ = (2 ^ j * (2 * a) + 2 ^ j) ||| lo := by rw [← h2]
    _ = 2 ^ j * (2 * a + 1) + lo := by
        rw [show 2 ^ j * (2 * a) + 2 ^ j = 2 ^ j * (2 * a + 1) from by ring]
        exact (Nat.mul_add_lt_is_or hlo _).symm

theorem setFlag_sum {j M a lo : Nat} (c : Bool) (hM : M = 2 ^ j) (hlo : lo < M) :
    setFlag (M * (2 * a) + lo) c M = M * (2 * a + c.toNat) + lo := by
  cases c
  · rw [setFlag, if_neg (by simp), Bool.toNat_false, Nat.add_zero]
  · rw [setFlag, if_pos rfl, Bool.toNat_true]
    exact or_mid hM hlo

/-! ### Primitive read lemmas over regions -/

theorem unpackU8_region {v : Nat} {msg : Bytes} {off : Nat}
    (hr : region msg off [v]) : unpackU8 msg off = (v, off + 1, true) := by
  have hb : off + 1 ≤ msg.length := by have := hr.bound; simpa using this
  have hg : msg.getD off 0 = v := by
    have := hr.getD 0 (by simp)
    simpa using this
  rw [unpackU8, if_neg (by omega), hg]

theorem unpackU16_region {v : Nat} (hv : v < 65536) {msg : Bytes} {off : Nat}
    (hr : region msg off (w16 v)) : unpackU16 msg off = (v, off + 2, true) := by
  have hb : off + 2 ≤ msg.length := by have := hr.bound; simpa [w16] using this
  have hg0 : msg.getD off 0 = (v >>> 8) % 256 := by
    have := hr.getD 0 (by simp [w16])
    simpa [w16] using this
  have hg1 : msg.getD (off + 1) 0 = v % 256 := by
    have := hr.getD 1 (by simp [w16])
    simpa [w16] using this
  rw [unpackU16, if_neg (by omega), unpackUint16, hg0, hg1, be16_eq hv]

theorem unpackU32_region {v : Nat} (hv : v < 4294967296) {msg : Bytes} {off : Nat}
    (hr : region msg off (w32 v)) : unpackU32 msg off = (v, off + 4, true) := by
  have hb : off + 4 ≤ msg.length := by have := hr.bound; simpa [w32] using this
  have hg0 : msg.getD off 0 = (v >>> 24) % 256 := by
    have := hr.getD 0 (by simp [w32]); simpa [w32] using this
  have hg1 : msg.getD (off + 1) 0 = (v >>> 16) % 256 := by
    have := hr.getD 1 (by simp [w32]); simpa [w32] using this
  have hg2 : msg.getD (off + 2) 0 = (v >>> 8) % 256 := by
    have := hr.getD 2 (by simp [w32]); simpa [w32] using this
  have hg3 : msg.getD (off + 3) 0 = v % 256 := by
    have := hr.getD 3 (by simp [w32]); simpa [w32] using this
  rw [unpackU32, if_neg (by omega), hg0, hg1, hg2, hg3, be32_eq hv]

theorem unpackCountedString_region {s : Bytes} {msg : Bytes} {off : Nat}
    (hr : region msg off (s.length :: s)) :
    unpackCountedString msg off = (s, off + 1 + s.length, true) := by
  have hb : off + (s.length + 1) ≤ msg.length := by
    have := hr.bound; simpa using this
  have hg : msg.getD off 0 = s.length := by
    have := hr.getD 0 (by simp)
    simpa using this
  have htail : region msg (off + 1) s := by
    have : (s.length :: s : Bytes) = [s.length] ++ s := rfl
    rw [this] at hr
    have h2 := (region_append.mp hr).2
    simpa using h2
  rw [unpackCountedString, hg, if_neg (by omega), sliceB_of_region htail]

theorem unpackIPv4_region {ip : Bytes} (hlen : ip.length = 4) {msg : Bytes} {off : Nat}
    (hr : region msg off ip) : unpackIPv4 msg off = (ip, off + 4, true) := by
  have hb := hr.bound
  have hs := sliceB_of_region hr
  rw [hlen] at hb hs
  rw [unpackIPv4, if_neg (by omega), hs]

theorem unpackIPv6_region {ip : Bytes} (hlen : ip.length = 16) {msg : Bytes} {off : Nat}
    (hr : region msg off ip) : unpackIPv6 msg off = (ip, off + 16, true) := by
  have hb := hr.bound
  have hs := sliceB_of_region hr
  rw [hlen] at hb hs
  rw [unpackIPv6, if_neg (by omega), hs]

/-! ## Data model

Modelled from the spec: the struct declarations (`Header`, `Question`,
`RR_Header`, the per-type RR structs) and the constants/registry live in a
repository file that is not under `src/`; §3, §4.4–4.6 and §6 of the spec give
their layout.  The RR universe modelled here is the subset
A, NS, CNAME, SOA, MX, TXT, AAAA, SRV, DS of the spec's payload list
(TXT is modelled with a single counted string, the spec's minimum). -/

/-- Modelled from the spec: standard RR type codes (`TypeA = 1`, `IN = 1`
appear in §1/§6 scenario S1; the rest are the IANA assignments the constants
file uses). -/
def TypeA : Nat := 1
def TypeNS : Nat := 2
def TypeCNAME : Nat := 5
def TypeSOA : Nat := 6
def TypeMX : Nat := 15
def TypeTXT : Nat := 16
def TypeAAAA : Nat := 28
def TypeSRV : Nat := 33
def TypeDS : Nat := 43

/-- Modelled from the spec: the wire-level `Header` struct (§4.5, §6): six
16-bit big-endian fields. -/
structure HeaderW where
  Id : Nat
  Bits : Nat
  Qdcount : Nat
  Ancount : Nat
  Nscount : Nat
  Arcount : Nat
deriving DecidableEq

def hdrW0 : HeaderW := ⟨0, 0, 0, 0, 0, 0⟩

/-- Modelled from the spec: `Question` struct (§3): (name, type, class). -/
structure Question where
  Name : Bytes
  Qtype : Nat
  Qclass : Nat
deriving DecidableEq

def question0 : Question := ⟨[], 0, 0⟩

/-- Modelled from the spec: `RR_Header` (§3): name, type code, class code,
TTL, rdlength. -/
structure RR_Header where
  Name : Bytes
  Rrtype : Nat
  Class : Nat
  Ttl : Nat
  Rdlength : Nat
deriving DecidableEq

def rrHeader0 : RR_Header := ⟨[], 0, 0, 0, 0⟩

/-- Modelled from the spec: the typed RR payloads (§3), restricted to the
modelled subset.  `ds` stores the digest as raw bytes (the Go field holds
their hex string; `hex.EncodeToString`/`DecodeString` is a bijection between
the two, so nothing is lost). -/
inductive Rdata where
  | a (ip : Bytes)
  | ns (nsdname : Bytes)
  | cname (target : Bytes)
  | soa (nsname mbox : Bytes) (serial refresh retry expire minttl : Nat)
  | mx (pref : Nat) (mxname : Bytes)
  | txt (txt : Bytes)
  | aaaa (ip : Bytes)
  | srv (priority weight port : Nat) (target : Bytes)
  | ds (keytag alg digesttype : Nat) (digest : Bytes)
deriving DecidableEq

/-- The wire type code each payload variant belongs to. -/
def rdataType : Rdata → Nat
  | .a _ => TypeA
  | .ns _ => TypeNS
  | .cname _ => TypeCNAME
  | .soa .. => TypeSOA
  | .mx .. => TypeMX
  | .txt _ => TypeTXT
  | .aaaa _ => TypeAAAA
  | .srv .. => TypeSRV
  | .ds .. => TypeDS

/-- Modelled from the spec: the registry `rr_mk` (§4.4: type code → payload
constructor; a type code is "known" when it has an entry).  Restricted to the
modelled subset. -/
def rr_mk (t : Nat) : Bool :=
  (t == TypeA) || (t == TypeNS) || (t == TypeCNAME) || (t == TypeSOA) ||
  (t == TypeMX) || (t == TypeTXT) || (t == TypeAAAA) || (t == TypeSRV) || (t == TypeDS)

/-- A section slot: Go's `RR` interface value — `none` is a nil RR; a pair
with payload `none` is a bare `*RR_Header` (unpackRR's bare-header result). -/
abbrev RRslot := Option (RR_Header × Option Rdata)

/-- The in-memory `Msg` (msg.go lines 541–604): `MsgHdr` fields plus the four
sections. -/
structure Msg where
  Id : Nat
  Response : Bool
  Opcode : Nat
  Authoritative : Bool
  Truncated : Bool
  RecursionDesired : Bool
  RecursionAvailable : Bool
  Zero : Bool
  AuthenticatedData : Bool
  CheckingDisabled : Bool
  Rcode : Nat
  Question : List Question
  Answer : List RRslot
  Ns : List RRslot
  Extra : List RRslot
deriving DecidableEq

def emptyMsg : Msg :=
  ⟨0, false, 0, false, false, false, false, false, false, false, 0, [], [], [], []⟩

def DefaultMsgSize : Nat := 4096

/-! ## Pack side (msg.go lines 201–330, 482–508, 607–673) -/

/-- Sequential composition of packers: on failure the reflection walk returns
`(len(msg), false)` immediately, which is exactly the failed triple itself
(every packer fails with `off' = len(msg)`). -/
def andThen (r : Bytes × Nat × Bool) (f : Bytes → Nat → Bytes × Nat × Bool) :
    Bytes × Nat × Bool :=
  if r.2.2 = true then f r.1 r.2.1 else r

/-- `andThen` for packers that may panic. -/
def andThenO (r : Bytes × Nat × Bool) (f : Bytes → Nat → Option (Bytes × Nat × Bool)) :
    Option (Bytes × Nat × Bool) :=
  if r.2.2 = true then f r.1 r.2.1 else some r

/-- The flag word built by `Msg.Pack` (msg.go lines 611–636); `uint16` casts
are mod 2¹⁶.  The bit constants `_QR … _CD` come from the constants file
(modelled from the spec: QR=0x8000, AA=0x400, TC=0x200, RD=0x100, RA=0x80,
Z=0x40, AD=0x20, CD=0x10). -/
def headerBits (m : Msg) : Nat :=
  setFlag (setFlag (setFlag (setFlag (setFlag (setFlag (setFlag (setFlag
    ((((m.Opcode % 65536) <<< 11) % 65536) ||| (m.Rcode % 65536))
    m.Response 0x8000) m.Authoritative 0x400) m.Truncated 0x200)
    m.RecursionDesired 0x100) m.RecursionAvailable 0x80) m.Zero 0x40)
    m.AuthenticatedData 0x20) m.CheckingDisabled 0x10

/-- `packStruct` on the wire header: six uint16 fields in declaration order. -/
def packHeaderW (h : HeaderW) (msg : Bytes) (off : Nat) : Bytes × Nat × Bool :=
  andThen (andThen (andThen (andThen (andThen (packU16 h.Id msg off)
    (packU16 h.Bits)) (packU16 h.Qdcount)) (packU16 h.Ancount))
    (packU16 h.Nscount)) (packU16 h.Arcount)

/-- `packStruct` on a `Question`: domain name, qtype, qclass. -/
def packQuestion (q : Question) (msg : Bytes) (off : Nat) : Bytes × Nat × Bool :=
  andThen (andThen (packDomainName q.Name msg off) (packU16 q.Qtype)) (packU16 q.Qclass)

/-- `packStruct` on an `RR_Header`: name, type, class, ttl, rdlength. -/
def packRRHeader (h : RR_Header) (msg : Bytes) (off : Nat) : Bytes × Nat × Bool :=
  andThen (andThen (andThen (andThen (packDomainName h.Name msg off)
    (packU16 h.Rrtype)) (packU16 h.Class)) (packU32 h.Ttl)) (packU16 h.Rdlength)

/-- `packStructValue` on an RR payload, by variant.  The `hex` case (msg.go
lines 299–305) writes the decoded digest but does **not** advance the offset
(the source has no `off +=` there); the `copy` slice `msg[off:off+n]` panics
(`none`) when it reaches past the buffer. -/
def packRdata (rd : Rdata) (msg : Bytes) (off : Nat) : Option (Bytes × Nat × Bool) :=
  match rd with
  | .a ip => packIPv4 ip msg off
  | .ns n => some (packDomainName n msg off)
  | .cname n => some (packDomainName n msg off)
  | .soa nsname mbox serial refresh retry expire minttl =>
    some (andThen (andThen (andThen (andThen (andThen (andThen
      (packDomainName nsname msg off) (packDomainName mbox)) (packU32 serial))
      (packU32 refresh)) (packU32 retry)) (packU32 expire)) (packU32 minttl))
  | .mx pref mxname => some (andThen (packU16 pref msg off) (packDomainName mxname))
  | .txt t => some (packCountedString t msg off)
  | .aaaa ip => packIPv6 ip msg off
  | .srv priority weight port target =>
    some (andThen (andThen (andThen (packU16 priority msg off) (packU16 weight))
      (packU16 port)) (packDomainName target))
  | .ds keytag alg digesttype digest =>
    andThenO (andThen (andThen (packU16 keytag msg off) (packU8 alg)) (packU8 digesttype))
      (fun msg off =>
        if msg.length < off + digest.length then none
        else some (writeBytes msg off digest, off, true))

/-- `packStruct` on a full typed RR: header fields then payload fields. -/
def packRRfull (h : RR_Header) (rd : Rdata) (msg : Bytes) (off : Nat) :
    Option (Bytes × Nat × Bool) :=
  andThenO (packRRHeader h msg off) (packRdata rd)

/-- `packRR` (msg.go lines 482–508): nil check, pack the header to find its
end, pack the whole RR, patch `Rdlength = uint16(off2 - off1)` and pack the
header once more. -/
def packRR (rr : RRslot) (msg : Bytes) (off : Nat) : Option (Bytes × Nat × Bool) :=
  match rr with
  | none => some (msg, msg.length, false)
  | some (h, pl) =>
    let r1 := packRRHeader h msg off
    match (match pl with
           | none => some (packRRHeader h r1.1 off)
           | some rd => packRRfull h rd r1.1 off) with
    | none => none
    | some r2 =>
      if r2.2.2 = false then some (r2.1, (r2.1).length, false)
      else
        let h' := { h with Rdlength := (r2.2.1 - r1.2.1) % 65536 }
        let r3 := packRRHeader h' r2.1 off
        some (r3.1, r2.2.1, true)

/-- The question loop of `Msg.Pack`: `off, ok` are overwritten each iteration
(msg.go lines 657–659). -/
def packQuestions : List Question → Bytes → Nat → Bool → Bytes × Nat × Bool
  | [], msg, off, ok => (msg, off, ok)
  | q :: qs, msg, off, _ =>
    let r := packQuestion q msg off
    packQuestions qs r.1 r.2.1 r.2.2

/-- An RR loop of `Msg.Pack` (msg.go lines 660–668). -/
def packRRs : List RRslot → Bytes → Nat → Bool → Option (Bytes × Nat × Bool)
  | [], msg, off, ok => some (msg, off, ok)
  | r :: rs, msg, off, _ =>
    match packRR r msg off with
    | none => none
    | some st => packRRs rs st.1 st.2.1 st.2.2

/-- `Msg.Pack` (msg.go lines 607–673): build the wire header (flag word and
section counts as `uint16` casts), allocate a `DefaultMsgSize` buffer, pack
header, questions and the three RR sections, and return the prefix `[0:off]`
(or `nil, false`). -/
def Msg.Pack (m : Msg) : Option (Bytes × Bool) :=
  let dh : HeaderW :=
    { Id := m.Id, Bits := headerBits m,
      Qdcount := m.Question.length % 65536, Ancount := m.Answer.length % 65536,
      Nscount := m.Ns.length % 65536, Arcount := m.Extra.length % 65536 }
  let r0 := packHeaderW dh (List.replicate DefaultMsgSize 0) 0
  let r1 := packQuestions m.Question r0.1 r0.2.1 r0.2.2
  match packRRs m.Answer r1.1 r1.2.1 r1.2.2 with
  | none => none
  | some r2 =>
    match packRRs m.Ns r2.1 r2.2.1 r2.2.2 with
    | none => none
    | some r3 =>
      match packRRs m.Extra r3.1 r3.2.1 r3.2.2 with
      | none => none
      | some r4 =>
        if r4.2.2 = false then some ([], false)
        else some (r4.1.take r4.2.1, true)

/-! ## Unpack side (msg.go lines 334–479, 511–535, 675–717)

Unpack functions return `Option`: `none` models a Go runtime panic (only the
`hex`/`base64` rdlength slices can panic) or fuel exhaustion in
`unpackDomainName` (provably unreachable).  On a normal failure they return
`(…, len(msg), false)` like the source; the value component is then the
partially-filled struct, whose content the source's callers discard — the
embedding returns zero values there. -/

/-- `unpackStruct` on the wire header: six uint16 reads. -/
def unpackHeaderW (msg : Bytes) (off : Nat) : HeaderW × Nat × Bool :=
  let r1 := unpackU16 msg off
  if r1.2.2 = false then (hdrW0, msg.length, false) else
  let r2 := unpackU16 msg r1.2.1
  if r2.2.2 = false then (hdrW0, msg.length, false) else
  let r3 := unpackU16 msg r2.2.1
  if r3.2.2 = false then (hdrW0, msg.length, false) else
  let r4 := unpackU16 msg r3.2.1
  if r4.2.2 = false then (hdrW0, msg.length, false) else
  let r5 := unpackU16 msg r4.2.1
  if r5.2.2 = false then (hdrW0, msg.length, false) else
  let r6 := unpackU16 msg r5.2.1
  if r6.2.2 = false then (hdrW0, msg.length, false) else
  (⟨r1.1, r2.1, r3.1, r4.1, r5.1, r6.1⟩, r6.2.1, true)

/-- `unpackStruct` on a `Question`: name then two uint16s. -/
def unpackQuestion (msg : Bytes) (off : Nat) : Option (Question × Nat × Bool) :=
  match unpackDomainName msg off with
  | none => none
  | some (name, off1, ok1) =>
    if ok1 = false then some (question0, msg.length, false)
    else
      let r2 := unpackU16 msg off1
      if r2.2.2 = false then some (question0, msg.length, false)
      else
        let r3 := unpackU16 msg r2.2.1
        if r3.2.2 = false then some (question0, msg.length, false)
        else some (⟨name, r2.1, r3.1⟩, r3.2.1, true)

/-- `unpackStruct` on an `RR_Header`. -/
def unpackRRHeader (msg : Bytes) (off : Nat) : Option (RR_Header × Nat × Bool) :=
  match unpackDomainName msg off with
  | none => none
  | some (name, off1, ok1) =>
    if ok1 = false then some (rrHeader0, msg.length, false)
    else
      let r2 := unpackU16 msg off1
      if r2.2.2 = false then some (rrHeader0, msg.length, false)
      else
        let r3 := unpackU16 msg r2.2.1
        if r3.2.2 = false then some (rrHeader0, msg.length, false)
        else
          let r4 := unpackU32 msg r3.2.1
          if r4.2.2 = false then some (rrHeader0, msg.length, false)
          else
            let r5 := unpackU16 msg r4.2.1
            if r5.2.2 = false then some (rrHeader0, msg.length, false)
            else some (⟨name, r2.1, r3.1, r4.1, r5.1⟩, r5.2.1, true)

/-- `unpackStructValue` on an RR payload, by type code.  The `hex` case for DS
(msg.go lines 411–422) slices `msg[off : off+rdlength-consumed]` with
`consumed = 4`; a negative length (`rdlength < 4`) or an end past the buffer
is a Go slice-bounds panic, modelled as `none`. -/
def unpackRdata (t : Nat) (h : RR_Header) (msg : Bytes) (off : Nat) :
    Option (Rdata × Nat × Bool) :=
  if t = TypeA then
    let r := unpackIPv4 msg off
    some (.a r.1, r.2.1, r.2.2)
  else if t = TypeNS then
    match unpackDomainName msg off with
    | none => none
    | some (n, off1, ok1) =>
      if ok1 = false then some (.ns [], msg.length, false)
      else some (.ns n, off1, true)
  else if t = TypeCNAME then
    match unpackDomainName msg off with
    | none => none
    | some (n, off1, ok1) =>
      if ok1 = false then some (.cname [], msg.length, false)
      else some (.cname n, off1, true)
  else if t = TypeSOA then
    match unpackDomainName msg off with
    | none => none
    | some (nsname, off1, ok1) =>
      if ok1 = false then some (.soa [] [] 0 0 0 0 0, msg.length, false)
      else
        match unpackDomainName msg off1 with
        | none => none
        | some (mbox, off2, ok2) =>
          if ok2 = false then some (.soa [] [] 0 0 0 0 0, msg.length, false)
          else
            let r3 := unpackU32 msg off2
            if r3.2.2 = false then some (.soa [] [] 0 0 0 0 0, msg.length, false)
            else
              let r4 := unpackU32 msg r3.2.1
              if r4.2.2 = false then some (.soa [] [] 0 0 0 0 0, msg.length, false)
              else
                let r5 := unpackU32 msg r4.2.1
                if r5.2.2 = false then some (.soa [] [] 0 0 0 0 0, msg.length, false)
                else
                  let r6 := unpackU32 msg r5.2.1
                  if r6.2.2 = false then some (.soa [] [] 0 0 0 0 0, msg.length, false)
                  else
                    let r7 := unpackU32 msg r6.2.1
                    if r7.2.2 = false then some (.soa [] [] 0 0 0 0 0, msg.length, false)
                    else some (.soa nsname mbox r3.1 r4.1 r5.1 r6.1 r7.1, r7.2.1, true)
  else if t = TypeMX then
    let r1 := unpackU16 msg off
    if r1.2.2 = false then some (.mx 0 [], msg.length, false)
    else
      match unpackDomainName msg r1.2.1 with
      | none => none
      | some (n, off2, ok2) =>
        if ok2 = false then some (.mx 0 [], msg.length, false)
        else some (.mx r1.1 n, off2, true)
  else if t = TypeTXT then
    let r := unpackCountedString msg off
    some (.txt r.1, r.2.1, r.2.2)
  else if t = TypeAAAA then
    let r := unpackIPv6 msg off
    some (.aaaa r.1, r.2.1, r.2.2)
  else if t = TypeSRV then
    let r1 := unpackU16 msg off
    if r1.2.2 = false then some (.srv 0 0 0 [], msg.length, false)
    else
      let r2 := unpackU16 msg r1.2.1
      if r2.2.2 = false then some (.srv 0 0 0 [], msg.length, false)
      else
        let r3 := unpackU16 msg r2.2.1
        if r3.2.2 = false then some (.srv 0 0 0 [], msg.length, false)
        else
          match unpackDomainName msg r3.2.1 with
          | none => none
          | some (n, off4, ok4) =>
            if ok4 = false then some (.srv 0 0 0 [], msg.length, false)
            else some (.srv r1.1 r2.1 r3.1 n, off4, true)
  else if t = TypeDS then
    let r1 := unpackU16 msg off
    if r1.2.2 = false then some (.ds 0 0 0 [], msg.length, false)
    else
      let r2 := unpackU8 msg r1.2.1
      if r2.2.2 = false then some (.ds 0 0 0 [], msg.length, false)
      else
        let r3 := unpackU8 msg r2.2.1
        if r3.2.2 = false then some (.ds 0 0 0 [], msg.length, false)
        else
          -- hex tag: msg[off : off+rdlength-consumed], consumed = 4
          if h.Rdlength < 4 then none
          else if msg.length < r3.2.1 + (h.Rdlength - 4) then none
          else some (.ds r1.1 r2.1 r3.1 (sliceB msg r3.2.1 (r3.2.1 + (h.Rdlength - 4))),
            r3.2.1 + (h.Rdlength - 4), true)
  else some (.a [], msg.length, false)

/-- `unpackStruct` on a full typed RR (header fields then payload fields), as
`unpackRR` re-runs it from the start offset. -/
def unpackRRfull (t : Nat) (msg : Bytes) (off : Nat) :
    Option ((RR_Header × Rdata) × Nat × Bool) :=
  match unpackRRHeader msg off with
  | none => none
  | some (h, off1, ok1) =>
    if ok1 = false then some ((rrHeader0, .a []), msg.length, false)
    else
      match unpackRdata t h msg off1 with
      | none => none
      | some (rd, off2, ok2) => some ((h, rd), off2, ok2)

/-- `unpackRR` (msg.go lines 511–535): unpack the header alone, compute
`end = off + rdlength`; unknown types yield the bare header at `end` with
`ok = true`; known types are re-unpacked from the start, and an offset
mismatch with `end` also yields the bare header at `end` with `ok = true`. -/
def unpackRR (msg : Bytes) (off : Nat) : Option (RRslot × Nat × Bool) :=
  match unpackRRHeader msg off with
  | none => none
  | some (h, off1, ok1) =>
    if ok1 = false then some (none, msg.length, false)
    else
      if rr_mk h.Rrtype = false then some (some (h, none), off1 + h.Rdlength, true)
      else
        match unpackRRfull h.Rrtype msg off with
        | none => none
        | some ((h2, rd), off2, ok2) =>
          if off2 ≠ off1 + h.Rdlength then some (some (h, none), off1 + h.Rdlength, true)
          else some (some (h2, some rd), off2, ok2)

/-- The question loop of `Msg.Unpack`: `off, ok` overwritten each iteration
(msg.go lines 698–700). -/
def unpackQuestions (msg : Bytes) : Nat → Nat → Bool → Option (List Question × Nat × Bool)
  | 0, off, ok => some ([], off, ok)
  | n + 1, off, _ =>
    match unpackQuestion msg off with
    | none => none
    | some (q, off1, ok1) =>
      match unpackQuestions msg n off1 ok1 with
      | none => none
      | some (qs, off2, ok2) => some (q :: qs, off2, ok2)

/-- An RR loop of `Msg.Unpack` (msg.go lines 701–709). -/
def unpackRRs (msg : Bytes) : Nat → Nat → Bool → Option (List RRslot × Nat × Bool)
  | 0, off, ok => some ([], off, ok)
  | n + 1, off, _ =>
    match unpackRR msg off with
    | none => none
    | some (r, off1, ok1) =>
      match unpackRRs msg n off1 ok1 with
      | none => none
      | some (rs, off2, ok2) => some (r :: rs, off2, ok2)

/-- Derive the `MsgHdr` fields from the wire header (msg.go lines 683–690).
`Zero`, `AuthenticatedData` and `CheckingDisabled` are **not** assigned by
`Unpack`; a fresh receiver leaves them `false`. -/
def msgOfParts (dh : HeaderW) (qs : List Question) (ans ns ex : List RRslot) : Msg :=
  { Id := dh.Id
    Response := dh.Bits &&& 0x8000 != 0
    Opcode := (dh.Bits >>> 11) &&& 0xF
    Authoritative := dh.Bits &&& 0x400 != 0
    Truncated := dh.Bits &&& 0x200 != 0
    RecursionDesired := dh.Bits &&& 0x100 != 0
    RecursionAvailable := dh.Bits &&& 0x80 != 0
    Zero := false
    AuthenticatedData := false
    CheckingDisabled := false
    Rcode := dh.Bits &&& 0xF
    Question := qs
    Answer := ans
    Ns := ns
    Extra := ex }

/-- `Msg.Unpack` (msg.go lines 675–717): header, four sections sized by the
declared counts; extra trailing bytes are only logged (`println`), the final
result is the `ok` of the last unpack. -/
def Msg.Unpack (msg : Bytes) : Option (Msg × Bool) :=
  let r0 := unpackHeaderW msg 0
  if r0.2.2 = false then some (emptyMsg, false)
  else
    let dh := r0.1
    match unpackQuestions msg dh.Qdcount r0.2.1 true with
    | none => none
    | some (qs, off1, ok1) =>
      match unpackRRs msg dh.Ancount off1 ok1 with
      | none => none
      | some (ans, off2, ok2) =>
        match unpackRRs msg dh.Nscount off2 ok2 with
        | none => none
        | some (ns, off3, ok3) =>
          match unpackRRs msg dh.Arcount off3 ok3 with
          | none => none
          | some (ex, _off4, ok4) =>
            -- `if off != len(msg) { println(...) }` only logs; the result is ok4
            some (msgOfParts dh qs ans ns ex, ok4)

/-! ## Wire images and validity

`wireX x` is the byte string `packStruct` writes for `x`; the round-trip
theorem shows `Pack` produces the concatenation of these and `Unpack` reads
them back.  `splitDots`/`labelsOf` recover the label list of a dotted name, so
the wire image is computable from the message alone. -/

/-- Split a byte string at every dot (the segments `packDomainName` walks);
the final segment is what follows the last dot. -/
def splitDots : Bytes → List Bytes
  | [] => [[]]
  | b :: rest =>
    if b = 46 then [] :: splitDots rest
    else
      match splitDots rest with
      | seg :: segs => (b :: seg) :: segs
      | [] => [[b]]

/-- The labels of a dot-terminated name (everything but the empty tail). -/
def labelsOf (s : Bytes) : List Bytes := (splitDots s).dropLast

theorem splitDots_ne_nil : ∀ s : Bytes, splitDots s ≠ [] := by
  intro s
  induction s with
  | nil => exact fun hc => List.noConfusion hc
  | cons b rest ih =>
    rw [splitDots]
    by_cases hb : b = 46
    · rw [if_pos hb]; exact fun hc => List.noConfusion hc
    · rw [if_neg hb]
      rcases hsd : splitDots rest with _ | ⟨seg, segs⟩
      · exact fun hc => List.noConfusion hc
      · exact fun hc => List.noConfusion hc

theorem splitDots_append_dot {cur : Bytes} (h : ∀ b ∈ cur, b ≠ 46) (r : Bytes) :
    splitDots (cur ++ 46 :: r) = cur :: splitDots r := by
  induction cur with
  | nil => rw [List.nil_append, splitDots, if_pos rfl]
  | cons b t ih =>
    have hb : b ≠ 46 := h b (List.mem_cons_self b t)
    rw [List.cons_append, splitDots, if_neg hb,
      ih (fun x hx => h x (List.mem_cons_of_mem b hx))]

theorem splitDots_dotted {L : List Bytes} (h : ∀ l ∈ L, ∀ b ∈ l, b ≠ 46) :
    splitDots (dotted L) = L ++ [[]] := by
  induction L with
  | nil => rfl
  | cons l L ih =>
    rw [dotted, splitDots_append_dot (h l (List.mem_cons_self l L)),
      ih (fun x hx => h x (List.mem_cons_of_mem l hx)), List.cons_append]

theorem labelsOf_dotted {L : List Bytes} (h : ∀ l ∈ L, ∀ b ∈ l, b ≠ 46) :
    labelsOf (dotted L) = L := by
  rw [labelsOf, splitDots_dotted h, List.dropLast_concat]

/-- The wire image of a name field. -/
def wireNameOf (s : Bytes) : Bytes := wireN (labelsOf s)

theorem wireNameOf_dotted {L : List Bytes} (h : ∀ l ∈ L, ∀ b ∈ l, b ≠ 46) :
    wireNameOf (dotted L) = wireN L := by
  rw [wireNameOf, labelsOf_dotted h]

def wireQuestion (q : Question) : Bytes :=
  wireNameOf q.Name ++ w16 q.Qtype ++ w16 q.Qclass

def wireRRHeader (h : RR_Header) : Bytes :=
  wireNameOf h.Name ++ w16 h.Rrtype ++ w16 h.Class ++ w32 h.Ttl ++ w16 h.Rdlength

/-- The bytes the payload pack advances over.  For `ds` the source writes the
digest without advancing the offset (the `hex` bug), so the advanced region is
just the three fixed fields; `ds` is excluded from the round-trip universe. -/
def wireRdata : Rdata → Bytes
  | .a ip => ip
  | .ns n => wireNameOf n
  | .cname n => wireNameOf n
  | .soa nsname mbox serial refresh retry expire minttl =>
    wireNameOf nsname ++ wireNameOf mbox ++ w32 serial ++ w32 refresh ++
      w32 retry ++ w32 expire ++ w32 minttl
  | .mx pref mxname => w16 pref ++ wireNameOf mxname
  | .txt t => t.length :: t
  | .aaaa ip => ip
  | .srv priority weight port target =>
    w16 priority ++ w16 weight ++ w16 port ++ wireNameOf target
  | .ds keytag alg digesttype _ => w16 keytag ++ [alg % 256, digesttype % 256]

def wireRRslot : RRslot → Bytes
  | none => []
  | some (h, none) => wireRRHeader h
  | some (h, some rd) => wireRRHeader h ++ wireRdata rd

def wireMsg (m : Msg) : Bytes :=
  w16 m.Id ++ w16 (headerBits m) ++ w16 (m.Question.length % 65536) ++
    w16 (m.Answer.length % 65536) ++ w16 (m.Ns.length % 65536) ++
    w16 (m.Extra.length % 65536) ++
    (m.Question.map wireQuestion).flatten ++ (m.Answer.map wireRRslot).flatten ++
    (m.Ns.map wireRRslot).flatten ++ (m.Extra.map wireRRslot).flatten

/-- Validity of a question for the round trip. -/
def validQuestion (q : Question) : Prop :=
  validName q.Name ∧ q.Qtype < 65536 ∧ q.Qclass < 65536

/-- Validity of an RR payload for the round trip.  `ds` (the only `hex`
payload in the universe) is excluded: its pack does not advance the offset,
which loses the digest. -/
def validRdata : Rdata → Prop
  | .a ip => ip.length = 4 ∧ ∀ b ∈ ip, b < 256
  | .ns n => validName n
  | .cname n => validName n
  | .soa nsname mbox serial refresh retry expire minttl =>
    validName nsname ∧ validName mbox ∧ serial < 4294967296 ∧
      refresh < 4294967296 ∧ retry < 4294967296 ∧ expire < 4294967296 ∧
      minttl < 4294967296
  | .mx pref mxname => pref < 65536 ∧ validName mxname
  | .txt t => t.length ≤ 255 ∧ ∀ b ∈ t, b < 256
  | .aaaa ip => ip.length = 16 ∧ ∀ b ∈ ip, b < 256
  | .srv priority weight port target =>
    priority < 65536 ∧ weight < 65536 ∧ port < 65536 ∧ validName target
  | .ds _ _ _ _ => False

/-- Validity of a section slot: a present RR with a typed payload whose header
type matches the payload, bounded fields, and `Rdlength` equal to the actual
payload wire length (what `packRR` patches it to). -/
def validRR (r : RRslot) : Prop :=
  ∃ h rd, r = some (h, some rd) ∧ validName h.Name ∧ h.Rrtype = rdataType rd ∧
    h.Class < 65536 ∧ h.Ttl < 4294967296 ∧
    h.Rdlength = (wireRdata rd).length ∧ h.Rdlength < 65536 ∧ validRdata rd

/-- A valid message: bounded header fields, valid sections, and a total wire
size that fits the fixed `DefaultMsgSize` output buffer. -/
def validMsg (m : Msg) : Prop :=
  m.Id < 65536 ∧ m.Opcode < 16 ∧ m.Rcode < 16 ∧
  m.Question.length < 65536 ∧ m.Answer.length < 65536 ∧
  m.Ns.length < 65536 ∧ m.Extra.length < 65536 ∧
  (∀ q ∈ m.Question, validQuestion q) ∧
  (∀ r ∈ m.Answer, validRR r) ∧ (∀ r ∈ m.Ns, validRR r) ∧
  (∀ r ∈ m.Extra, validRR r) ∧
  (wireMsg m).length ≤ DefaultMsgSize

/-! ## Pack writes wire images -/

@[simp] theorem length_w16 (v : Nat) : (w16 v).length = 2 := rfl

@[simp] theorem length_w32 (v : Nat) : (w32 v).length = 4 := rfl

theorem packU8_step {v : Nat} {msg : Bytes} {off : Nat} (h : off + 1 ≤ msg.length) :
    packU8 v msg off = (writeBytes msg off [v % 256], off + [v % 256].length, true) := by
  rw [packU8, if_neg (by omega)]
  rfl

theorem packU16_step {v : Nat} {msg : Bytes} {off : Nat} (h : off + 2 ≤ msg.length) :
    packU16 v msg off = (writeBytes msg off (w16 v), off + (w16 v).length, true) := by
  rw [packU16, if_neg (by omega)]
  rfl

theorem packU32_step {v : Nat} {msg : Bytes} {off : Nat} (h : off + 4 ≤ msg.length) :
    packU32 v msg off = (writeBytes msg off (w32 v), off + (w32 v).length, true) := by
  rw [packU32, if_neg (by omega)]
  rfl

theorem packCS_step {s : Bytes} (hs : s.length ≤ 255) {msg : Bytes} {off : Nat}
    (h : off + 1 + s.length ≤ msg.length) :
    packCountedString s msg off
      = (writeBytes msg off (s.length :: s), off + (s.length :: s).length, true) := by
  rw [packCountedString, if_neg (by omega)]
  rw [List.length_cons]
  rw [show off + (s.length + 1) = off + 1 + s.length from by omega]

/-- Chaining a packer that extends the written region. -/
theorem wire_step {msg : Bytes} {off : Nat} {w1 : Bytes} (w2 : Bytes)
    (f : Bytes → Nat → Bytes × Nat × Bool)
    (hf : f (writeBytes msg off w1) (off + w1.length)
      = (writeBytes (writeBytes msg off w1) (off + w1.length) w2,
         off + w1.length + w2.length, true)) :
    andThen (writeBytes msg off w1, off + w1.length, true) f
      = (writeBytes msg off (w1 ++ w2), off + (w1 ++ w2).length, true) := by
  rw [andThen, if_pos rfl]
  simp only []
  rw [hf, ← writeBytes_append, List.length_append, Nat.add_assoc]

/-- `wire_step` for a possibly-panicking packer. -/
theorem wire_stepO {msg : Bytes} {off : Nat} {w1 : Bytes} (w2 : Bytes)
    (f : Bytes → Nat → Option (Bytes × Nat × Bool))
    (hf : f (writeBytes msg off w1) (off + w1.length)
      = some (writeBytes (writeBytes msg off w1) (off + w1.length) w2,
         off + w1.length + w2.length, true)) :
    andThenO (writeBytes msg off w1, off + w1.length, true) f
      = some (writeBytes msg off (w1 ++ w2), off + (w1 ++ w2).length, true) := by
  rw [andThenO, if_pos rfl]
  simp only []
  rw [hf, ← writeBytes_append, List.length_append, Nat.add_assoc]

theorem packHeaderW_eq {h : HeaderW} {msg : Bytes} {off : Nat}
    (hle : off + 12 ≤ msg.length) :
    packHeaderW h msg off
      = (writeBytes msg off (w16 h.Id ++ w16 h.Bits ++ w16 h.Qdcount ++
          w16 h.Ancount ++ w16 h.Nscount ++ w16 h.Arcount),
         off + (w16 h.Id ++ w16 h.Bits ++ w16 h.Qdcount ++
          w16 h.Ancount ++ w16 h.Nscount ++ w16 h.Arcount).length, true) := by
  rw [packHeaderW]
  rw [packU16_step (by omega)]
  rw [wire_step (w16 h.Bits) _ (packU16_step (by rw [length_writeBytes]; simp; omega))]
  rw [wire_step (w16 h.Qdcount) _ (packU16_step (by rw [length_writeBytes]; simp; omega))]
  rw [wire_step (w16 h.Ancount) _ (packU16_step (by rw [length_writeBytes]; simp; omega))]
  rw [wire_step (w16 h.Nscount) _ (packU16_step (by rw [length_writeBytes]; simp; omega))]
  rw [wire_step (w16 h.Arcount) _ (packU16_step (by rw [length_writeBytes]; simp; omega))]

/-- A valid name's wire image, via `wireNameOf`. -/
theorem packDomainName_wire {s : Bytes} (hv : validName s) {msg : Bytes} {off : Nat}
    (hle : off + (wireNameOf s).length ≤ msg.length) :
    packDomainName s msg off
      = (writeBytes msg off (wireNameOf s), off + (wireNameOf s).length, true) := by
  obtain ⟨L, hne, hwf, hname⟩ := hv
  have hndot : ∀ l ∈ L, ∀ b ∈ l, b ≠ 46 := fun l hl b hb => ((hwf l hl).2.2 b hb).2
  subst hname
  rw [wireNameOf_dotted hndot] at hle ⊢
  exact packDomainName_eq hne hwf hle

theorem packQuestion_eq {q : Question} (hq : validQuestion q) {msg : Bytes} {off : Nat}
    (hle : off + (wireQuestion q).length ≤ msg.length) :
    packQuestion q msg off
      = (writeBytes msg off (wireQuestion q), off + (wireQuestion q).length, true) := by
  obtain ⟨hn, ht, hc⟩ := hq
  rw [wireQuestion] at hle
  simp only [List.length_append, length_w16] at hle
  rw [packQuestion]
  rw [packDomainName_wire hn (by omega)]
  rw [wire_step (w16 q.Qtype) _ (packU16_step (by rw [length_writeBytes]; omega))]
  rw [wire_step (w16 q.Qclass) _ (packU16_step (by rw [length_writeBytes]; simp [List.length_append]; omega))]
  rw [wireQuestion]

theorem packRRHeader_eq {h : RR_Header} (hn : validName h.Name) {msg : Bytes} {off : Nat}
    (hle : off + (wireRRHeader h).length ≤ msg.length) :
    packRRHeader h msg off
      = (writeBytes msg off (wireRRHeader h), off + (wireRRHeader h).length, true) := by
  rw [wireRRHeader] at hle
  simp only [List.length_append, length_w16, length_w32] at hle
  rw [packRRHeader]
  rw [packDomainName_wire hn (by omega)]
  rw [wire_step (w16 h.Rrtype) _ (packU16_step (by rw [length_writeBytes]; omega))]
  rw [wire_step (w16 h.Class) _ (packU16_step
    (by rw [length_writeBytes]; simp [List.length_append]; omega))]
  rw [wire_step (w32 h.Ttl) _ (packU32_step
    (by rw [length_writeBytes]; simp [List.length_append]; omega))]
  rw [wire_step (w16 h.Rdlength) _ (packU16_step
    (by rw [length_writeBytes]; simp [List.length_append]; omega))]
  rw [wireRRHeader]

theorem packRdata_eq {rd : Rdata} (hv : validRdata rd) {msg : Bytes} {off : Nat}
    (hle : off + (wireRdata rd).length ≤ msg.length) :
    packRdata rd msg off
      = some (writeBytes msg off (wireRdata rd), off + (wireRdata rd).length, true) := by
  cases rd with
  | a ip =>
    obtain ⟨hlen, _⟩ := hv
    rw [wireRdata] at hle ⊢
    rw [packRdata, packIPv4, if_neg (by omega), if_neg (by omega),
      List.take_of_length_le (by omega), hlen]
  | ns n =>
    rw [wireRdata] at hle ⊢
    rw [packRdata, packDomainName_wire hv hle]
  | cname n =>
    rw [wireRdata] at hle ⊢
    rw [packRdata, packDomainName_wire hv hle]
  | soa nsname mbox serial refresh retry expire minttl =>
    obtain ⟨h1, h2, _, _, _, _, _⟩ := hv
    rw [wireRdata] at hle ⊢
    simp only [List.length_append, length_w32] at hle
    rw [packRdata]
    rw [packDomainName_wire h1 (by omega)]
    rw [wire_step (wireNameOf mbox) _ (packDomainName_wire h2
      (by rw [length_writeBytes]; omega))]
    rw [wire_step (w32 serial) _ (packU32_step
      (by rw [length_writeBytes]; simp [List.length_append]; omega))]
    rw [wire_step (w32 refresh) _ (packU32_step
      (by rw [length_writeBytes]; simp [List.length_append]; omega))]
    rw [wire_step (w32 retry) _ (packU32_step
      (by rw [length_writeBytes]; simp [List.length_append]; omega))]
    rw [wire_step (w32 expire) _ (packU32_step
      (by rw [length_writeBytes]; simp [List.length_append]; omega))]
    rw [wire_step (w32 minttl) _ (packU32_step
      (by rw [length_writeBytes]; simp [List.length_append]; omega))]
  | mx pref mxname =>
    obtain ⟨h1, h2⟩ := hv
    rw [wireRdata] at hle ⊢
    simp only [List.length_append, length_w16] at hle
    rw [packRdata]
    rw [packU16_step (by omega)]
    rw [wire_step (wireNameOf mxname) _ (packDomainName_wire h2
      (by rw [length_writeBytes]; simp only [length_w16]; omega))]
  | txt t =>
    obtain ⟨h1, _⟩ := hv
    rw [wireRdata] at hle ⊢
    rw [packRdata, packCS_step h1 (by simp at hle; omega)]
  | aaaa ip =>
    obtain ⟨hlen, _⟩ := hv
    rw [wireRdata] at hle ⊢
    rw [packRdata, packIPv6, if_neg (by omega), if_neg (by omega),
      List.take_of_length_le (by omega), hlen]
  | srv priority weight port target =>
    obtain ⟨h1, h2, h3, h4⟩ := hv
    rw [wireRdata] at hle ⊢
    simp only [List.length_append, length_w16] at hle
    rw [packRdata]
    rw [packU16_step (by omega)]
    rw [wire_step (w16 weight) _ (packU16_step
      (by rw [length_writeBytes]; simp [List.length_append]; omega))]
    rw [wire_step (w16 port) _ (packU16_step
      (by rw [length_writeBytes]; simp [List.length_append]; omega))]
    rw [wire_step (wireNameOf target) _ (packDomainName_wire h4
      (by rw [length_writeBytes]; simp [List.length_append]; omega))]
  | ds keytag alg digesttype digest => exact absurd hv (by rw [validRdata]; exact fun h => h)

theorem packRRfull_eq {h : RR_Header} {rd : Rdata} (hn : validName h.Name)
    (hrd : validRdata rd) {msg : Bytes} {off : Nat}
    (hle : off + (wireRRHeader h ++ wireRdata rd).length ≤ msg.length) :
    packRRfull h rd msg off
      = some (writeBytes msg off (wireRRHeader h ++ wireRdata rd),
          off + (wireRRHeader h ++ wireRdata rd).length, true) := by
  simp only [List.length_append] at hle
  rw [packRRfull]
  rw [packRRHeader_eq hn (by omega)]
  rw [wire_stepO (wireRdata rd) _ (packRdata_eq hrd (by rw [length_writeBytes]; omega))]

/-- Re-writing a prefix of freshly written bytes with the same values is a
no-op (the third header pack of `packRR`). -/
theorem writeBytes_prefix_absorb {msg : Bytes} {off : Nat} {w1 w2 : Bytes}
    (hpre : ∀ i, i < w1.length → w2[i]? = w1[i]?) (hlen : w1.length ≤ w2.length)
    (h : off + w2.length ≤ msg.length) :
    writeBytes (writeBytes msg off w2) off w1 = writeBytes msg off w2 := by
  apply List.ext_getElem?
  intro i
  have h1 : off + w1.length ≤ (writeBytes msg off w2).length := by
    rw [length_writeBytes]; omega
  rw [getElem?_writeBytes w1 _ off h1 i]
  by_cases hw : off ≤ i ∧ i < off + w1.length
  · rw [if_pos hw, getElem?_writeBytes w2 msg off h i, if_pos (by omega)]
    exact (hpre (i - off) (by omega)).symm
  · rw [if_neg hw]

theorem RR_Header.eta (h : RR_Header) :
    ({ h with Rdlength := h.Rdlength } : RR_Header) = h := by
  cases h
  rfl

theorem packRR_eq {r : RRslot} (hv : validRR r) {msg : Bytes} {off : Nat}
    (hle : off + (wireRRslot r).length ≤ msg.length) :
    packRR r msg off
      = some (writeBytes msg off (wireRRslot r), off + (wireRRslot r).length, true) := by
  obtain ⟨h, rd, rfl, hn, _, _, _, hrdl, hrdlt, hrd⟩ := hv
  rw [wireRRslot] at hle ⊢
  have hlen : (wireRRHeader h ++ wireRdata rd).length
      = (wireRRHeader h).length + (wireRdata rd).length := List.length_append _ _
  rw [packRR]
  simp only []
  rw [packRRHeader_eq hn (by omega)]
  simp only []
  rw [packRRfull_eq hn hrd (by rw [length_writeBytes]; omega)]
  rw [writeBytes_overwrite (by rw [List.length_append]; omega) (by omega)]
  simp only []
  rw [if_neg (by simp)]
  rw [show off + (wireRRHeader h ++ wireRdata rd).length - (off + (wireRRHeader h).length)
      = (wireRdata rd).length from by omega]
  rw [show (wireRdata rd).length % 65536 = h.Rdlength from by omega]
  rw [RR_Header.eta]
  rw [packRRHeader_eq hn (by rw [length_writeBytes]; omega)]
  simp only []
  rw [writeBytes_prefix_absorb
    (fun i hi => List.getElem?_append_left hi) (by rw [List.length_append]; omega)
    (by omega)]

theorem packQuestions_eq : ∀ (qs : List Question), (∀ q ∈ qs, validQuestion q) →
    ∀ {msg : Bytes} {off : Nat},
    off + ((qs.map wireQuestion).flatten).length ≤ msg.length →
    packQuestions qs msg off true
      = (writeBytes msg off (qs.map wireQuestion).flatten,
         off + ((qs.map wireQuestion).flatten).length, true) := by
  intro qs
  induction qs with
  | nil => intro _ msg off _; rfl
  | cons q qs ih =>
    intro hv msg off hle
    rw [List.map_cons, List.flatten_cons] at hle ⊢
    simp only [List.length_append] at hle
    rw [packQuestions]
    rw [packQuestion_eq (hv q (List.mem_cons_self q qs)) (by omega)]
    simp only []
    rw [ih (fun x hx => hv x (List.mem_cons_of_mem q hx))
      (by rw [length_writeBytes]; omega)]
    rw [← writeBytes_append, List.length_append, Nat.add_assoc]

theorem packRRs_eq : ∀ (rs : List RRslot), (∀ r ∈ rs, validRR r) →
    ∀ {msg : Bytes} {off : Nat},
    off + ((rs.map wireRRslot).flatten).length ≤ msg.length →
    packRRs rs msg off true
      = some (writeBytes msg off (rs.map wireRRslot).flatten,
         off + ((rs.map wireRRslot).flatten).length, true) := by
  intro rs
  induction rs with
  | nil => intro _ msg off _; rfl
  | cons r rs ih =>
    intro hv msg off hle
    rw [List.map_cons, List.flatten_cons] at hle ⊢
    simp only [List.length_append] at hle
    rw [packRRs]
    rw [packRR_eq (hv r (List.mem_cons_self r rs)) (by omega)]
    simp only []
    rw [ih (fun x hx => hv x (List.mem_cons_of_mem r hx))
      (by rw [length_writeBytes]; omega)]
    rw [← writeBytes_append, List.length_append, Nat.add_assoc]

/-- Normalises a fold result to a single write from offset 0. -/
theorem stage_merge {B0 : Bytes} {w1 w2 : Bytes} :
    (writeBytes (writeBytes B0 0 w1) (0 + w1.length) w2, 0 + w1.length + w2.length, (true : Bool))
      = (writeBytes B0 0 (w1 ++ w2), 0 + (w1 ++ w2).length, true) := by
  rw [writeBytes_append, List.length_append, Nat.add_assoc]

theorem take_writeBytes_self {msg w : Bytes} (h : w.length ≤ msg.length) :
    (writeBytes msg 0 w).take w.length = w := by
  have hr := @region_of_writeBytes msg 0 w (by omega)
  have hs := sliceB_of_region hr
  rw [sliceB] at hs
  simpa using hs

/-- A bare-header slot also packs to its wire image (both packs see the same
header, the patched rdlength is zero).  Only needed for completeness; valid
messages contain typed payloads. -/
theorem packRR_bare_eq {h : RR_Header} (hn : validName h.Name) (hrdl : h.Rdlength = 0)
    {msg : Bytes} {off : Nat}
    (hle : off + (wireRRHeader h).length ≤ msg.length) :
    packRR (some (h, none)) msg off
      = some (writeBytes msg off (wireRRHeader h), off + (wireRRHeader h).length, true) := by
  rw [packRR]
  simp only []
  rw [packRRHeader_eq hn hle]
  simp only []
  rw [packRRHeader_eq hn (by rw [length_writeBytes]; omega)]
  rw [writeBytes_overwrite (by omega) (by omega)]
  simp only []
  rw [if_neg (by simp)]
  rw [Nat.sub_self]
  rw [show (0 : Nat) % 65536 = h.Rdlength from by omega]
  rw [RR_Header.eta]
  rw [packRRHeader_eq hn (by rw [length_writeBytes]; omega)]
  simp only []
  rw [writeBytes_prefix_absorb (fun i _ => rfl) (by omega) (by omega)]

/-- `Msg.Pack` on a valid message succeeds and returns exactly the
concatenated wire images. -/
theorem Msg.Pack_eq {m : Msg} (hv : validMsg m) : Msg.Pack m = some (wireMsg m, true) := by
  obtain ⟨hid, hop, hrc, hql, hal, hnl, hel, hq, ha, hn, he, hsize⟩ := hv
  rw [DefaultMsgSize] at hsize
  have hlen : (wireMsg m).length
      = 12 + ((m.Question.map wireQuestion).flatten).length
        + ((m.Answer.map wireRRslot).flatten).length
        + ((m.Ns.map wireRRslot).flatten).length
        + ((m.Extra.map wireRRslot).flatten).length := by
    rw [wireMsg]
    simp only [List.length_append, length_w16]
  have hB0 : (List.replicate DefaultMsgSize (0 : Nat)).length = 4096 := by
    rw [List.length_replicate, DefaultMsgSize]
  unfold Msg.Pack
  simp only []
  rw [packHeaderW_eq (by rw [hB0]; omega)]
  simp only []
  have hW6 : (w16 m.Id ++ w16 (headerBits m) ++ w16 (m.Question.length % 65536) ++
      w16 (m.Answer.length % 65536) ++ w16 (m.Ns.length % 65536) ++
      w16 (m.Extra.length % 65536)).length = 12 := by
    simp only [List.length_append, length_w16]
  rw [packQuestions_eq m.Question hq
    (by rw [length_writeBytes, hB0, hW6]; omega)]
  rw [stage_merge]
  simp only []
  rw [packRRs_eq m.Answer ha
    (by rw [length_writeBytes, hB0]; simp only [List.length_append, hW6]; omega)]
  rw [stage_merge]
  simp only []
  rw [packRRs_eq m.Ns hn
    (by rw [length_writeBytes, hB0]; simp only [List.length_append, hW6]; omega)]
  rw [stage_merge]
  simp only []
  rw [packRRs_eq m.Extra he
    (by rw [length_writeBytes, hB0]; simp only [List.length_append, hW6]; omega)]
  rw [stage_merge]
  simp only []
  rw [if_neg (by simp)]
  rw [Nat.zero_add]
  rw [take_writeBytes_self (by
    rw [hB0]
    simp only [List.length_append, length_w16]
    omega)]
  rfl

/-! ## The flag word as a sum, and field extraction -/

theorem headerBits_sum {m : Msg} (hop : m.Opcode < 16) (hrc : m.Rcode < 16) :
    headerBits m
      = 32768 * m.Response.toNat + 2048 * m.Opcode + 1024 * m.Authoritative.toNat
        + 512 * m.Truncated.toNat + 256 * m.RecursionDesired.toNat
        + 128 * m.RecursionAvailable.toNat + 64 * m.Zero.toNat
        + 32 * m.AuthenticatedData.toNat + 16 * m.CheckingDisabled.toNat + m.Rcode := by
  rw [headerBits]
  have hb0 : (((m.Opcode % 65536) <<< 11) % 65536) ||| (m.Rcode % 65536)
      = 2048 * m.Opcode + m.Rcode := by
    rw [Nat.mod_eq_of_lt (show m.Opcode < 65536 by omega),
      Nat.mod_eq_of_lt (show m.Rcode < 65536 by omega),
      Nat.shiftLeft_eq,
      show (2 : Nat) ^ 11 = 2048 from by norm_num,
      Nat.mod_eq_of_lt (show m.Opcode * 2048 < 65536 by omega),
      or_eq_add_pow (k := 11) (by norm_num) (by omega)]
    ring
  rw [hb0]
  rw [show 2048 * m.Opcode + m.Rcode = 32768 * (2 * 0) + (2048 * m.Opcode + m.Rcode)
    from by ring]
  rw [setFlag_sum m.Response (j := 15) (by norm_num) (by omega)]
  rw [show 32768 * (2 * 0 + m.Response.toNat) + (2048 * m.Opcode + m.Rcode)
      = 1024 * (2 * (16 * m.Response.toNat + m.Opcode)) + m.Rcode from by ring]
  rw [setFlag_sum m.Authoritative (j := 10) (by norm_num) (by omega)]
  rw [show 1024 * (2 * (16 * m.Response.toNat + m.Opcode) + m.Authoritative.toNat) + m.Rcode
      = 512 * (2 * (32 * m.Response.toNat + 2 * m.Opcode + m.Authoritative.toNat)) + m.Rcode
    from by ring]
  rw [setFlag_sum m.Truncated (j := 9) (by norm_num) (by omega)]
  rw [show 512 * (2 * (32 * m.Response.toNat + 2 * m.Opcode + m.Authoritative.toNat)
        + m.Truncated.toNat) + m.Rcode
      = 256 * (2 * (64 * m.Response.toNat + 4 * m.Opcode + 2 * m.Authoritative.toNat
        + m.Truncated.toNat)) + m.Rcode from by ring]
  rw [setFlag_sum m.RecursionDesired (j := 8) (by norm_num) (by omega)]
  rw [show 256 * (2 * (64 * m.Response.toNat + 4 * m.Opcode + 2 * m.Authoritative.toNat
        + m.Truncated.toNat) + m.RecursionDesired.toNat) + m.Rcode
      = 128 * (2 * (128 * m.Response.toNat + 8 * m.Opcode + 4 * m.Authoritative.toNat
        + 2 * m.Truncated.toNat + m.RecursionDesired.toNat)) + m.Rcode from by ring]
  rw [setFlag_sum m.RecursionAvailable (j := 7) (by norm_num) (by omega)]
  rw [show 128 * (2 * (128 * m.Response.toNat + 8 * m.Opcode + 4 * m.Authoritative.toNat
        + 2 * m.Truncated.toNat + m.RecursionDesired.toNat) + m.RecursionAvailable.toNat)
        + m.Rcode
      = 64 * (2 * (256 * m.Response.toNat + 16 * m.Opcode + 8 * m.Authoritative.toNat
        + 4 * m.Truncated.toNat + 2 * m.RecursionDesired.toNat
        + m.RecursionAvailable.toNat)) + m.Rcode from by ring]
  rw [setFlag_sum m.Zero (j := 6) (by norm_num) (by omega)]
  rw [show 64 * (2 * (256 * m.Response.toNat + 16 * m.Opcode + 8 * m.Authoritative.toNat
        + 4 * m.Truncated.toNat + 2 * m.RecursionDesired.toNat
        + m.RecursionAvailable.toNat) + m.Zero.toNat) + m.Rcode
      = 32 * (2 * (512 * m.Response.toNat + 32 * m.Opcode + 16 * m.Authoritative.toNat
        + 8 * m.Truncated.toNat + 4 * m.RecursionDesired.toNat
        + 2 * m.RecursionAvailable.toNat + m.Zero.toNat)) + m.Rcode from by ring]
  rw [setFlag_sum m.AuthenticatedData (j := 5) (by norm_num) (by omega)]
  rw [show 32 * (2 * (512 * m.Response.toNat + 32 * m.Opcode + 16 * m.Authoritative.toNat
        + 8 * m.Truncated.toNat + 4 * m.RecursionDesired.toNat
        + 2 * m.RecursionAvailable.toNat + m.Zero.toNat) + m.AuthenticatedData.toNat)
        + m.Rcode
      = 16 * (2 * (1024 * m.Response.toNat + 64 * m.Opcode + 32 * m.Authoritative.toNat
        + 16 * m.Truncated.toNat + 8 * m.RecursionDesired.toNat
        + 4 * m.RecursionAvailable.toNat + 2 * m.Zero.toNat
        + m.AuthenticatedData.toNat)) + m.Rcode from by ring]
  rw [setFlag_sum m.CheckingDisabled (j := 4) (by norm_num) (by omega)]
  ring

theorem headerBits_lt {m : Msg} (hop : m.Opcode < 16) (hrc : m.Rcode < 16) :
    headerBits m < 65536 := by
  rw [headerBits_sum hop hrc]
  have t1 := Bool.toNat_le m.Response
  have t2 := Bool.toNat_le m.Authoritative
  have t3 := Bool.toNat_le m.Truncated
  have t4 := Bool.toNat_le m.RecursionDesired
  have t5 := Bool.toNat_le m.RecursionAvailable
  have t6 := Bool.toNat_le m.Zero
  have t7 := Bool.toNat_le m.AuthenticatedData
  have t8 := Bool.toNat_le m.CheckingDisabled
  omega

theorem and_flag_eq {B M j : Nat} {c : Bool} (hM : M = 2 ^ j) (h : B / M % 2 = c.toNat) :
    (B &&& M != 0) = c := by
  subst hM
  rw [Nat.and_two_pow, Nat.testBit_to_div_mod, h]
  cases c
  · simp
  · simp [(Nat.two_pow_pos j).ne']

theorem headerBits_fields {m : Msg} (hop : m.Opcode < 16) (hrc : m.Rcode < 16) :
    (headerBits m &&& 0x8000 != 0) = m.Response
    ∧ ((headerBits m >>> 11) &&& 0xF) = m.Opcode
    ∧ (headerBits m &&& 0x400 != 0) = m.Authoritative
    ∧ (headerBits m &&& 0x200 != 0) = m.Truncated
    ∧ (headerBits m &&& 0x100 != 0) = m.RecursionDesired
    ∧ (headerBits m &&& 0x80 != 0) = m.RecursionAvailable
    ∧ (headerBits m &&& 0xF) = m.Rcode := by
  have hs := headerBits_sum hop hrc
  have t1 := Bool.toNat_le m.Response
  have t2 := Bool.toNat_le m.Authoritative
  have t3 := Bool.toNat_le m.Truncated
  have t4 := Bool.toNat_le m.RecursionDesired
  have t5 := Bool.toNat_le m.RecursionAvailable
  have t6 := Bool.toNat_le m.Zero
  have t7 := Bool.toNat_le m.AuthenticatedData
  have t8 := Bool.toNat_le m.CheckingDisabled
  refine ⟨?_, ?_, ?_, ?_, ?_, ?_, ?_⟩
  · exact and_flag_eq (j := 15) (by norm_num) (by rw [hs]; omega)
  · rw [Nat.shiftRight_eq_div_pow, show (2 : Nat) ^ 11 = 2048 from by norm_num,
      show (0xF : Nat) = 2 ^ 4 - 1 from by norm_num, Nat.and_pow_two_sub_one_eq_mod,
      show (2 : Nat) ^ 4 = 16 from by norm_num, hs]
    omega
  · exact and_flag_eq (j := 10) (by norm_num) (by rw [hs]; omega)
  · exact and_flag_eq (j := 9) (by norm_num) (by rw [hs]; omega)
  · exact and_flag_eq (j := 8) (by norm_num) (by rw [hs]; omega)
  · exact and_flag_eq (j := 7) (by norm_num) (by rw [hs]; omega)
  · rw [show (0xF : Nat) = 2 ^ 4 - 1 from by norm_num, Nat.and_pow_two_sub_one_eq_mod,
      show (2 : Nat) ^ 4 = 16 from by norm_num, hs]
    omega

/-! ## Unpack reads wire images back -/

theorem unpackHeaderW_region {h : HeaderW} (hid : h.Id < 65536) (hbits : h.Bits < 65536)
    (hqd : h.Qdcount < 65536) (han : h.Ancount < 65536) (hns : h.Nscount < 65536)
    (har : h.Arcount < 65536) {msg : Bytes} {off : Nat}
    (hr : region msg off (w16 h.Id ++ w16 h.Bits ++ w16 h.Qdcount ++ w16 h.Ancount ++
      w16 h.Nscount ++ w16 h.Arcount)) :
    unpackHeaderW msg off = (h, off + 12, true) := by
  have s5 := region_append.mp hr
  have s4 := region_append.mp s5.1
  have s3 := region_append.mp s4.1
  have s2 := region_append.mp s3.1
  have s1 := region_append.mp s2.1
  have rId : region msg off (w16 h.Id) := s1.1
  have rBits : region msg (off + 2) (w16 h.Bits) := by
    have := s1.2; simpa using this
  have rQd : region msg (off + 4) (w16 h.Qdcount) := by
    have := s2.2; simpa using this
  have rAn : region msg (off + 6) (w16 h.Ancount) := by
    have := s3.2; simpa using this
  have rNs : region msg (off + 8) (w16 h.Nscount) := by
    have := s4.2; simpa using this
  have rAr : region msg (off + 10) (w16 h.Arcount) := by
    have := s5.2; simpa using this
  rw [unpackHeaderW]
  rw [unpackU16_region hid rId]
  simp only []
  rw [if_neg (by simp)]
  rw [unpackU16_region hbits rBits]
  simp only []
  rw [if_neg (by simp)]
  rw [show off + 2 + 2 = off + 4 from by omega]
  rw [unpackU16_region hqd rQd]
  simp only []
  rw [if_neg (by simp)]
  rw [show off + 4 + 2 = off + 6 from by omega]
  rw [unpackU16_region han rAn]
  simp only []
  rw [if_neg (by simp)]
  rw [show off + 6 + 2 = off + 8 from by omega]
  rw [unpackU16_region hns rNs]
  simp only []
  rw [if_neg (by simp)]
  rw [show off + 8 + 2 = off + 10 from by omega]
  rw [unpackU16_region har rAr]
  simp only []
  rw [if_neg (by simp)]

theorem unpackQuestion_region {q : Question} (hq : validQuestion q) {msg : Bytes}
    {off : Nat} (hr : region msg off (wireQuestion q)) :
    unpackQuestion msg off = some (q, off + (wireQuestion q).length, true) := by
  obtain ⟨Name, Qtype, Qclass⟩ := q
  obtain ⟨⟨L, hne, hwf, hname⟩, ht, hc⟩ := hq
  simp only [] at hname ht hc
  subst hname
  rw [wireQuestion] at hr ⊢
  simp only [] at hr ⊢
  rw [wireNameOf_dotted (fun l hl b hb => ((hwf l hl).2.2 b hb).2)] at hr ⊢
  have s2 := region_append.mp hr
  have s1 := region_append.mp s2.1
  have rN : region msg off (wireN L) := s1.1
  have rT : region msg (off + (wireN L).length) (w16 Qtype) := s1.2
  have rC : region msg (off + (wireN L).length + 2) (w16 Qclass) := by
    have := s2.2
    simp only [List.length_append, length_w16] at this
    rw [show off + ((wireN L).length + 2) = off + (wireN L).length + 2 from by omega] at this
    exact this
  rw [unpackQuestion]
  rw [unpackDomainName_eq hwf rN]
  simp only []
  rw [if_neg (by simp)]
  rw [unpackU16_region ht rT]
  simp only []
  rw [if_neg (by simp)]
  rw [unpackU16_region hc rC]
  simp only []
  rw [if_neg (by simp)]
  simp only [List.length_append, length_w16]
  rw [show off + (wireN L).length + 2 + 2 = off + ((wireN L).length + 2 + 2) from by omega]

theorem unpackRRHeader_region {h : RR_Header} (hn : validName h.Name)
    (ht : h.Rrtype < 65536) (hc : h.Class < 65536) (httl : h.Ttl < 4294967296)
    (hrdl : h.Rdlength < 65536) {msg : Bytes} {off : Nat}
    (hr : region msg off (wireRRHeader h)) :
    unpackRRHeader msg off = some (h, off + (wireRRHeader h).length, true) := by
  obtain ⟨Name, Rrtype, Class, Ttl, Rdlength⟩ := h
  obtain ⟨L, hne, hwf, hname⟩ := hn
  simp only [] at hname ht hc httl hrdl
  subst hname
  rw [wireRRHeader] at hr ⊢
  simp only [] at hr ⊢
  rw [wireNameOf_dotted (fun l hl b hb => ((hwf l hl).2.2 b hb).2)] at hr ⊢
  have s4 := region_append.mp hr
  have s3 := region_append.mp s4.1
  have s2 := region_append.mp s3.1
  have s1 := region_append.mp s2.1
  have rN : region msg off (wireN L) := s1.1
  have rT : region msg (off + (wireN L).length) (w16 Rrtype) := s1.2
  have rC : region msg (off + (wireN L).length + 2) (w16 Class) := by
    have := s2.2
    simp only [List.length_append, length_w16] at this
    rw [show off + ((wireN L).length + 2) = off + (wireN L).length + 2 from by omega] at this
    exact this
  have rTtl : region msg (off + (wireN L).length + 4) (w32 Ttl) := by
    have := s3.2
    simp only [List.length_append, length_w16] at this
    rw [show off + ((wireN L).length + 2 + 2) = off + (wireN L).length + 4 from by omega] at this
    exact this
  have rRdl : region msg (off + (wireN L).length + 8) (w16 Rdlength) := by
    have := s4.2
    simp only [List.length_append, length_w16, length_w32] at this
    rw [show off + ((wireN L).length + 2 + 2 + 4) = off + (wireN L).length + 8 from by omega] at this
    exact this
  rw [unpackRRHeader]
  rw [unpackDomainName_eq hwf rN]
  simp only []
  rw [if_neg (by simp)]
  rw [unpackU16_region ht rT]
  simp only []
  rw [if_neg (by simp)]
  rw [unpackU16_region hc rC]
  simp only []
  rw [if_neg (by simp)]
  rw [show off + (wireN L).length + 2 + 2 = off + (wireN L).length + 4 from by omega]
  rw [unpackU32_region httl rTtl]
  simp only []
  rw [if_neg (by simp)]
  rw [show off + (wireN L).length + 4 + 4 = off + (wireN L).length + 8 from by omega]
  rw [unpackU16_region hrdl rRdl]
  simp only []
  rw [if_neg (by simp)]
  simp only [List.length_append, length_w16, length_w32]
  rw [show off + (wireN L).length + 8 + 2 = off + ((wireN L).length + 2 + 2 + 4 + 2) from by omega]

theorem rdataType_lt (rd : Rdata) : rdataType rd < 65536 := by
  cases rd <;> simp only [rdataType] <;> decide

theorem rr_mk_rdataType (rd : Rdata) : rr_mk (rdataType rd) = true := by
  cases rd <;> simp only [rdataType] <;> decide

theorem unpackRdata_region {rd : Rdata} (hv : validRdata rd) (h : RR_Header)
    {msg : Bytes} {off : Nat} (hr : region msg off (wireRdata rd)) :
    unpackRdata (rdataType rd) h msg off
      = some (rd, off + (wireRdata rd).length, true) := by
  cases rd with
  | a ip =>
    obtain ⟨hlen, _⟩ := hv
    rw [wireRdata] at hr ⊢
    rw [rdataType, unpackRdata, if_pos rfl, unpackIPv4_region hlen hr, hlen]
  | ns n =>
    obtain ⟨L, hne, hwf, hname⟩ := hv
    subst hname
    rw [wireRdata] at hr ⊢
    rw [wireNameOf_dotted (fun l hl b hb => ((hwf l hl).2.2 b hb).2)] at hr ⊢
    rw [rdataType, unpackRdata, if_neg (by decide), if_pos rfl]
    rw [unpackDomainName_eq hwf hr]
    simp only []
    rw [if_neg (by simp)]
  | cname n =>
    obtain ⟨L, hne, hwf, hname⟩ := hv
    subst hname
    rw [wireRdata] at hr ⊢
    rw [wireNameOf_dotted (fun l hl b hb => ((hwf l hl).2.2 b hb).2)] at hr ⊢
    rw [rdataType, unpackRdata, if_neg (by decide), if_neg (by decide), if_pos rfl]
    rw [unpackDomainName_eq hwf hr]
    simp only []
    rw [if_neg (by simp)]
  | soa nsname mbox serial refresh retry expire minttl =>
    obtain ⟨hv1, hv2, hs, hrf, hrt, hex, hmi⟩ := hv
    obtain ⟨L1, hne1, hwf1, hn1⟩ := hv1
    obtain ⟨L2, hne2, hwf2, hn2⟩ := hv2
    subst hn1 hn2
    rw [wireRdata] at hr ⊢
    rw [wireNameOf_dotted (fun l hl b hb => ((hwf1 l hl).2.2 b hb).2),
      wireNameOf_dotted (fun l hl b hb => ((hwf2 l hl).2.2 b hb).2)] at hr ⊢
    have s6 := region_append.mp hr
    have s5 := region_append.mp s6.1
    have s4 := region_append.mp s5.1
    have s3 := region_append.mp s4.1
    have s2 := region_append.mp s3.1
    have s1 := region_append.mp s2.1
    have rN1 : region msg off (wireN L1) := s1.1
    have rN2 : region msg (off + (wireN L1).length) (wireN L2) := s1.2
    have rS : region msg (off + (wireN L1).length + (wireN L2).length) (w32 serial) := by
      have := s2.2
      simp only [List.length_append] at this
      rw [show off + ((wireN L1).length + (wireN L2).length)
          = off + (wireN L1).length + (wireN L2).length from by omega] at this
      exact this
    have rRf : region msg (off + (wireN L1).length + (wireN L2).length + 4) (w32 refresh) := by
      have := s3.2
      simp only [List.length_append, length_w32] at this
      rw [show off + ((wireN L1).length + (wireN L2).length + 4)
          = off + (wireN L1).length + (wireN L2).length + 4 from by omega] at this
      exact this
    have rRt : region msg (off + (wireN L1).length + (wireN L2).length + 8) (w32 retry) := by
      have := s4.2
      simp only [List.length_append, length_w32] at this
      rw [show off + ((wireN L1).length + (wireN L2).length + 4 + 4)
          = off + (wireN L1).length + (wireN L2).length + 8 from by omega] at this
      exact this
    have rEx : region msg (off + (wireN L1).length + (wireN L2).length + 12) (w32 expire) := by
      have := s5.2
      simp only [List.length_append, length_w32] at this
      rw [show off + ((wireN L1).length + (wireN L2).length + 4 + 4 + 4)
          = off + (wireN L1).length + (wireN L2).length + 12 from by omega] at this
      exact this
    have rMi : region msg (off + (wireN L1).length + (wireN L2).length + 16) (w32 minttl) := by
      have := s6.2
      simp only [List.length_append, length_w32] at this
      rw [show off + ((wireN L1).length + (wireN L2).length + 4 + 4 + 4 + 4)
          = off + (wireN L1).length + (wireN L2).length + 16 from by omega] at this
      exact this
    rw [rdataType, unpackRdata, if_neg (by decide), if_neg (by decide),
      if_neg (by decide), if_pos rfl]
    rw [unpackDomainName_eq hwf1 rN1]
    simp only []
    rw [if_neg (by simp)]
    rw [unpackDomainName_eq hwf2 rN2]
    simp only []
    rw [if_neg (by simp)]
    rw [show off + (wireN L1).length + (wireN L2).length
        = off + (wireN L1).length + (wireN L2).length from rfl]
    rw [unpackU32_region hs rS]
    simp only []
    rw [if_neg (by simp)]
    rw [unpackU32_region hrf rRf]
    simp only []
    rw [if_neg (by simp)]
    rw [show off + (wireN L1).length + (wireN L2).length + 4 + 4
        = off + (wireN L1).length + (wireN L2).length + 8 from by omega]
    rw [unpackU32_region hrt rRt]
    simp only []
    rw [if_neg (by simp)]
    rw [show off + (wireN L1).length + (wireN L2).length + 8 + 4
        = off + (wireN L1).length + (wireN L2).length + 12 from by omega]
    rw [unpackU32_region hex rEx]
    simp only []
    rw [if_neg (by simp)]
    rw [show off + (wireN L1).length + (wireN L2).length + 12 + 4
        = off + (wireN L1).length + (wireN L2).length + 16 from by omega]
    rw [unpackU32_region hmi rMi]
    simp only []
    rw [if_neg (by simp)]
    simp only [List.length_append, length_w32]
    rw [show off + (wireN L1).length + (wireN L2).length + 16 + 4
        = off + ((wireN L1).length + ((wireN L2).length + 4 + 4 + 4 + 4 + 4)) from by omega]
    rw [show (wireN L1).length + ((wireN L2).length + 4 + 4 + 4 + 4 + 4)
        = (wireN L1).length + (wireN L2).length + 4 + 4 + 4 + 4 + 4 from by omega]
  | mx pref mxname =>
    obtain ⟨hp, hv2⟩ := hv
    obtain ⟨L, hne, hwf, hname⟩ := hv2
    subst hname
    rw [wireRdata] at hr ⊢
    rw [wireNameOf_dotted (fun l hl b hb => ((hwf l hl).2.2 b hb).2)] at hr ⊢
    have s1 := region_append.mp hr
    have rP : region msg off (w16 pref) := s1.1
    have rN : region msg (off + 2) (wireN L) := by
      have := s1.2
      simpa using this
    rw [rdataType, unpackRdata, if_neg (by decide), if_neg (by decide),
      if_neg (by decide), if_neg (by decide), if_pos rfl]
    rw [unpackU16_region hp rP]
    simp only []
    rw [if_neg (by simp)]
    rw [unpackDomainName_eq hwf rN]
    simp only []
    rw [if_neg (by simp)]
    simp only [List.length_append, length_w16]
    rw [show off + 2 + (wireN L).length = off + (2 + (wireN L).length) from by omega]
  | txt t =>
    obtain ⟨h1, _⟩ := hv
    rw [wireRdata] at hr ⊢
    rw [rdataType, unpackRdata, if_neg (by decide), if_neg (by decide),
      if_neg (by decide), if_neg (by decide), if_neg (by decide), if_pos rfl]
    rw [unpackCountedString_region hr]
    simp only [List.length_cons]
    rw [show off + 1 + t.length = off + (t.length + 1) from by omega]
  | aaaa ip =>
    obtain ⟨hlen, _⟩ := hv
    rw [wireRdata] at hr ⊢
    rw [rdataType, unpackRdata, if_neg (by decide), if_neg (by decide),
      if_neg (by decide), if_neg (by decide), if_neg (by decide), if_neg (by decide),
      if_pos rfl, unpackIPv6_region hlen hr, hlen]
  | srv priority weight port target =>
    obtain ⟨h1, h2, h3, hv4⟩ := hv
    obtain ⟨L, hne, hwf, hname⟩ := hv4
    subst hname
    rw [wireRdata] at hr ⊢
    rw [wireNameOf_dotted (fun l hl b hb => ((hwf l hl).2.2 b hb).2)] at hr ⊢
    have s3 := region_append.mp hr
    have s2 := region_append.mp s3.1
    have s1 := region_append.mp s2.1
    have rP : region msg off (w16 priority) := s1.1
    have rW : region msg (off + 2) (w16 weight) := by
      have := s1.2; simpa using this
    have rPt : region msg (off + 4) (w16 port) := by
      have := s2.2
      simp only [List.length_append, length_w16] at this
      rw [show off + (2 + 2) = off + 4 from by omega] at this
      exact this
    have rN : region msg (off + 6) (wireN L) := by
      have := s3.2
      simp only [List.length_append, length_w16] at this
      rw [show off + (2 + 2 + 2) = off + 6 from by omega] at this
      exact this
    rw [rdataType, unpackRdata, if_neg (by decide), if_neg (by decide),
      if_neg (by decide), if_neg (by decide), if_neg (by decide), if_neg (by decide),
      if_neg (by decide), if_pos rfl]
    rw [unpackU16_region h1 rP]
    simp only []
    rw [if_neg (by simp)]
    rw [unpackU16_region h2 rW]
    simp only []
    rw [if_neg (by simp)]
    rw [show off + 2 + 2 = off + 4 from by omega]
    rw [unpackU16_region h3 rPt]
    simp only []
    rw [if_neg (by simp)]
    rw [show off + 4 + 2 = off + 6 from by omega]
    rw [unpackDomainName_eq hwf rN]
    simp only []
    rw [if_neg (by simp)]
    simp only [List.length_append, length_w16]
    rw [show off + 6 + (wireN L).length = off + (2 + 2 + 2 + (wireN L).length) from by omega]
  | ds keytag alg digesttype digest => exact absurd hv (fun h => h)

theorem unpackRRfull_region {h : RR_Header} {rd : Rdata} (hn : validName h.Name)
    (hc : h.Class < 65536) (httl : h.Ttl < 4294967296) (hrdl : h.Rdlength < 65536)
    (htype : h.Rrtype = rdataType rd) (hrd : validRdata rd) {msg : Bytes} {off : Nat}
    (hr : region msg off (wireRRHeader h ++ wireRdata rd)) :
    unpackRRfull h.Rrtype msg off
      = some ((h, rd), off + (wireRRHeader h).length + (wireRdata rd).length, true) := by
  have s1 := region_append.mp hr
  have rH : region msg off (wireRRHeader h) := s1.1
  have rD : region msg (off + (wireRRHeader h).length) (wireRdata rd) := s1.2
  rw [unpackRRfull]
  rw [unpackRRHeader_region hn (htype ▸ rdataType_lt rd) hc httl hrdl rH]
  simp only []
  rw [if_neg (by simp)]
  rw [htype]
  rw [unpackRdata_region hrd h rD]

theorem unpackRR_region {r : RRslot} (hv : validRR r) {msg : Bytes} {off : Nat}
    (hr : region msg off (wireRRslot r)) :
    unpackRR msg off = some (r, off + (wireRRslot r).length, true) := by
  obtain ⟨h, rd, hEq, hn, htype, hc, httl, hrdl, hrdlt, hrd⟩ := hv
  subst hEq
  rw [wireRRslot] at hr ⊢
  have s1 := region_append.mp hr
  have rH : region msg off (wireRRHeader h) := s1.1
  rw [unpackRR]
  rw [unpackRRHeader_region hn (htype ▸ rdataType_lt rd) hc httl hrdlt rH]
  simp only []
  rw [if_neg (by simp)]
  rw [if_neg (by rw [htype, rr_mk_rdataType]; simp)]
  rw [unpackRRfull_region hn hc httl hrdlt htype hrd hr]
  simp only []
  rw [if_neg (by omega)]
  simp only [List.length_append]
  rw [show off + (wireRRHeader h).length + (wireRdata rd).length
      = off + ((wireRRHeader h).length + (wireRdata rd).length) from by omega]

theorem unpackQuestions_region {msg : Bytes} :
    ∀ (qs : List Question), (∀ q ∈ qs, validQuestion q) → ∀ off : Nat,
      region msg off ((qs.map wireQuestion).flatten) →
      unpackQuestions msg qs.length off true
        = some (qs, off + ((qs.map wireQuestion).flatten).length, true) := by
  intro qs
  induction qs with
  | nil =>
    intro _ off _
    rw [List.length_nil, unpackQuestions]
    simp
  | cons q rest ih =>
    intro hq off hr
    simp only [List.map_cons, List.flatten_cons] at hr
    have s1 := region_append.mp hr
    rw [List.length_cons, unpackQuestions]
    rw [unpackQuestion_region (hq q (by simp)) s1.1]
    simp only []
    rw [ih (fun x hx => hq x (by simp [hx])) _ s1.2]
    simp only [List.map_cons, List.flatten_cons, List.length_append]
    rw [show off + (wireQuestion q).length + ((rest.map wireQuestion).flatten).length
        = off + ((wireQuestion q).length + ((rest.map wireQuestion).flatten).length)
        from by omega]

theorem unpackRRs_region {msg : Bytes} :
    ∀ (rs : List RRslot), (∀ r ∈ rs, validRR r) → ∀ off : Nat,
      region msg off ((rs.map wireRRslot).flatten) →
      unpackRRs msg rs.length off true
        = some (rs, off + ((rs.map wireRRslot).flatten).length, true) := by
  intro rs
  induction rs with
  | nil =>
    intro _ off _
    rw [List.length_nil, unpackRRs]
    simp
  | cons r rest ih =>
    intro hrv off hr
    simp only [List.map_cons, List.flatten_cons] at hr
    have s1 := region_append.mp hr
    rw [List.length_cons, unpackRRs]
    rw [unpackRR_region (hrv r (by simp)) s1.1]
    simp only []
    rw [ih (fun x hx => hrv x (by simp [hx])) _ s1.2]
    simp only [List.map_cons, List.flatten_cons, List.length_append]
    rw [show off + (wireRRslot r).length + ((rest.map wireRRslot).flatten).length
        = off + ((wireRRslot r).length + ((rest.map wireRRslot).flatten).length)
        from by omega]

/-- `Unpack` of any buffer carrying a valid message's wire image at offset 0
succeeds and recovers the message (bytes past the image are only logged),
except that `Zero`, `AuthenticatedData` and `CheckingDisabled` come back as
the receiver's zero values (msg.go never assigns them in `Unpack`). -/
theorem Msg.Unpack_region {m : Msg} (hv : validMsg m) {msg : Bytes}
    (hw : region msg 0 (wireMsg m)) :
    Msg.Unpack msg
      = some ({ m with Zero := false, AuthenticatedData := false, CheckingDisabled := false }, true) := by
  obtain ⟨hid, hop, hrc, hql, hal, hnl, hel, hq, ha, hn, he, _⟩ := hv
  have hWdef : wireMsg m
      = w16 m.Id ++ w16 (headerBits m) ++ w16 m.Question.length ++
        w16 m.Answer.length ++ w16 m.Ns.length ++ w16 m.Extra.length ++
        (m.Question.map wireQuestion).flatten ++ (m.Answer.map wireRRslot).flatten ++
        (m.Ns.map wireRRslot).flatten ++ (m.Extra.map wireRRslot).flatten := by
    rw [wireMsg, Nat.mod_eq_of_lt hql, Nat.mod_eq_of_lt hal, Nat.mod_eq_of_lt hnl,
      Nat.mod_eq_of_lt hel]
  have hr0 := hw
  rw [hWdef] at hr0
  have t4 := region_append.mp hr0
  have t3 := region_append.mp t4.1
  have t2 := region_append.mp t3.1
  have t1 := region_append.mp t2.1
  have rHdr := t1.1
  have rQf := t1.2
  simp only [List.length_append, length_w16] at rQf
  rw [show 0 + (2 + 2 + 2 + 2 + 2 + 2) = 12 from by omega] at rQf
  have rAf := t2.2
  simp only [List.length_append, length_w16] at rAf
  rw [show 0 + (2 + 2 + 2 + 2 + 2 + 2 + ((m.Question.map wireQuestion).flatten).length)
      = 12 + ((m.Question.map wireQuestion).flatten).length from by omega] at rAf
  have rNf := t3.2
  simp only [List.length_append, length_w16] at rNf
  rw [show 0 + (2 + 2 + 2 + 2 + 2 + 2 + ((m.Question.map wireQuestion).flatten).length
        + ((m.Answer.map wireRRslot).flatten).length)
      = 12 + ((m.Question.map wireQuestion).flatten).length
        + ((m.Answer.map wireRRslot).flatten).length from by omega] at rNf
  have rEf := t4.2
  simp only [List.length_append, length_w16] at rEf
  rw [show 0 + (2 + 2 + 2 + 2 + 2 + 2 + ((m.Question.map wireQuestion).flatten).length
        + ((m.Answer.map wireRRslot).flatten).length
        + ((m.Ns.map wireRRslot).flatten).length)
      = 12 + ((m.Question.map wireQuestion).flatten).length
        + ((m.Answer.map wireRRslot).flatten).length
        + ((m.Ns.map wireRRslot).flatten).length from by omega] at rEf
  have hHdr := unpackHeaderW_region (h := ⟨m.Id, headerBits m, m.Question.length,
      m.Answer.length, m.Ns.length, m.Extra.length⟩) hid (headerBits_lt hop hrc)
      hql hal hnl hel rHdr
  rw [Msg.Unpack]
  rw [hHdr]
  simp only []
  rw [if_neg (by simp)]
  rw [show (0 : Nat) + 12 = 12 from by omega]
  rw [unpackQuestions_region m.Question hq 12 rQf]
  simp only []
  rw [unpackRRs_region m.Answer ha _ rAf]
  simp only []
  rw [unpackRRs_region m.Ns hn _ rNf]
  simp only []
  rw [unpackRRs_region m.Extra he _ rEf]
  simp only []
  rw [msgOfParts]
  have hf := headerBits_fields hop hrc
  rw [hf.1, hf.2.1, hf.2.2.1, hf.2.2.2.1, hf.2.2.2.2.1, hf.2.2.2.2.2.1, hf.2.2.2.2.2.2]

/-- `Unpack` of a valid message's wire image succeeds and recovers the message
modulo the three never-assigned header flags. -/
theorem Msg.Unpack_eq {m : Msg} (hv : validMsg m) :
    Msg.Unpack (wireMsg m)
      = some ({ m with Zero := false, AuthenticatedData := false, CheckingDisabled := false }, true) :=
  Msg.Unpack_region hv (region_refl (wireMsg m))

/-! ## The claims -/

/-- C3: decoding a compression pointer follows it to the absolute 14-bit
offset (`(c ^ 0xC0) << 8 | msg[off+1]`) and continues reading labels there
with the recorded return offset `off + 2`; once any pointer has been followed
(`ptr ≥ 1`), a successful decode returns exactly the recorded offset, i.e. the
offset immediately after the first pointer pair; and on the spec's S2 bytes
`03 'f' 'o' 'o' 03 'b' 'a' 'r' 00 C0 00` decoding at offset 9 yields
`"foo.bar."` with `ok = true` and `off' = 11`. -/
theorem C3_compression_pointer :
    (∀ (msg : Bytes) (off : Nat), off + 1 < msg.length →
      msg.getD off 0 &&& 0xC0 = 0xC0 →
      unpackDomainName msg off
        = unpackDomainNameAux msg (dnFuel msg - 1)
            (((msg.getD off 0 ^^^ 0xC0) <<< 8) ||| msg.getD (off + 1) 0) [] 1 (off + 2))
    ∧ (∀ (msg : Bytes) (fuel : Nat), ∀ (off : Nat) (s : Bytes) (ptr off1 : Nat)
        (v : Bytes) (noff : Nat),
        1 ≤ ptr →
        unpackDomainNameAux msg fuel off s ptr off1 = some (v, noff, true) →
        noff = off1)
    ∧ unpackDomainName [3, 102, 111, 111, 3, 98, 97, 114, 0, 0xC0, 0] 9
        = some ([102, 111, 111, 46, 98, 97, 114, 46], 11, true) := by
  refine ⟨?_, ?_, by decide⟩
  · intro msg off hlt hptr
    rw [unpackDomainName]
    rw [show dnFuel msg = (dnFuel msg - 1) + 1 from by rw [dnFuel]; omega]
    rw [unpackDomainNameAux]
    rw [if_neg (by omega), if_neg (by omega), if_pos hptr, if_neg (by omega),
      if_neg (by decide), if_pos rfl]
    norm_num
  · intro msg fuel
    induction fuel with
    | zero =>
      intro off s ptr off1 v noff _ hc
      rw [unpackDomainNameAux] at hc
      exact Option.noConfusion hc
    | succ fuel ih =>
      intro off s ptr off1 v noff hp h
      rw [unpackDomainNameAux] at h
      by_cases h0 : msg.length ≤ off
      · rw [if_pos h0] at h; simp at h
      rw [if_neg h0] at h
      by_cases h1 : msg.getD off 0 &&& 0xC0 = 0x00
      · rw [if_pos h1] at h
        by_cases h2 : msg.getD off 0 = 0
        · rw [if_pos h2, if_neg (by omega)] at h
          simp only [Option.some.injEq, Prod.mk.injEq] at h
          exact h.2.1.symm
        rw [if_neg h2] at h
        by_cases h3 : msg.length < off + 1 + msg.getD off 0
        · rw [if_pos h3] at h; simp at h
        rw [if_neg h3] at h
        exact ih _ _ _ _ _ _ hp h
      rw [if_neg h1] at h
      by_cases h4 : msg.getD off 0 &&& 0xC0 = 0xC0
      · rw [if_pos h4] at h
        by_cases h5 : msg.length ≤ off + 1
        · rw [if_pos h5] at h; simp at h
        rw [if_neg h5] at h
        by_cases h6 : 10 < ptr + 1
        · rw [if_pos h6] at h; simp at h
        rw [if_neg h6, if_neg (by omega)] at h
        exact ih _ _ _ _ _ _ (by omega) h
      rw [if_neg h4] at h
      simp at h

/-- C4: the unpack loop is total — the fuel `unpackDomainName` supplies never
runs out on any buffer or starting offset; a loop state that has already
followed 10 pointers fails (`ok = false`) as soon as it meets another
pointer byte; and the spec's S3 cycle `C0 02 C0 00` decoded at offset 0
returns `ok = false`. -/
theorem C4_termination_pointer_cap :
    (∀ (msg : Bytes) (off : Nat), unpackDomainName msg off ≠ none)
    ∧ (∀ (msg : Bytes) (fuel off : Nat) (s : Bytes) (off1 : Nat),
        off + 1 < msg.length → msg.getD off 0 &&& 0xC0 = 0xC0 →
        unpackDomainNameAux msg (fuel + 1) off s 10 off1
          = some ([], msg.length, false))
    ∧ unpackDomainName [0xC0, 2, 0xC0, 0] 0 = some ([], 4, false) := by
  refine ⟨unpackDomainName_ne_none, ?_, by decide⟩
  intro msg fuel off s off1 hlt hptr
  rw [unpackDomainNameAux]
  rw [if_neg (by omega), if_neg (by omega), if_pos hptr, if_neg (by omega),
    if_pos (by decide)]

/-- C9: a length byte whose top two bits are `01` (`c &&& 0xC0 = 0x40`) or
`10` (`c &&& 0xC0 = 0x80`) makes the decode loop fail at once, from any loop
state — so anywhere in a name — and hence `unpackDomainName` itself returns
`ok = false`; concretely for `0x40` at the start and `0x80` after a first
label. -/
theorem C9_reserved_length_bits :
    (∀ (msg : Bytes) (fuel off : Nat) (s : Bytes) (ptr off1 : Nat),
        off < msg.length →
        (msg.getD off 0 &&& 0xC0 = 0x40 ∨ msg.getD off 0 &&& 0xC0 = 0x80) →
        unpackDomainNameAux msg (fuel + 1) off s ptr off1
          = some ([], msg.length, false))
    ∧ (∀ (msg : Bytes) (off : Nat), off < msg.length →
        (msg.getD off 0 &&& 0xC0 = 0x40 ∨ msg.getD off 0 &&& 0xC0 = 0x80) →
        unpackDomainName msg off = some ([], msg.length, false))
    ∧ unpackDomainName [0x40, 0, 0] 0 = some ([], 3, false)
    ∧ unpackDomainName [1, 97, 0x80, 0] 0 = some ([], 4, false) := by
  have haux : ∀ (msg : Bytes) (fuel off : Nat) (s : Bytes) (ptr off1 : Nat),
      off < msg.length →
      (msg.getD off 0 &&& 0xC0 = 0x40 ∨ msg.getD off 0 &&& 0xC0 = 0x80) →
      unpackDomainNameAux msg (fuel + 1) off s ptr off1
        = some ([], msg.length, false) := by
    intro msg fuel off s ptr off1 hlt hres
    rw [unpackDomainNameAux]
    rcases hres with hres | hres <;>
      rw [if_neg (by omega), if_neg (by omega), if_neg (by omega)]
  refine ⟨haux, ?_, by decide, by decide⟩
  intro msg off hlt hres
  rw [unpackDomainName]
  rw [show dnFuel msg = (dnFuel msg - 1) + 1 from by rw [dnFuel]; omega]
  exact haux msg _ off [] 0 0 hlt hres

/-- C7: packing the minimal query (id `0x1234`, `RD = true`, one question
`example.com. A IN`) succeeds and produces exactly the 29 expected bytes
(flag word `01 00` big-endian at bytes 2–3); and in general the flag word is
`(opcode << 11) | rcode` plus the mask of each set flag, with QR=0x8000,
AA=0x0400, TC=0x0200, RD=0x0100, RA=0x0080, Z=0x0040, AD=0x0020, CD=0x0010. -/
theorem C7_minimal_query :
    Msg.Pack ({ emptyMsg with
        Id := 0x1234
        RecursionDesired := true
        Question := [⟨[101, 120, 97, 109, 112, 108, 101, 46, 99, 111, 109, 46], 1, 1⟩] })
      = some ([0x12, 0x34, 0x01, 0x00, 0x00, 0x01, 0x00, 0x00, 0x00, 0x00, 0x00, 0x00,
          7, 101, 120, 97, 109, 112, 108, 101, 3, 99, 111, 109, 0,
          0x00, 0x01, 0x00, 0x01], true)
    ∧ (∀ m : Msg, m.Opcode < 16 → m.Rcode < 16 →
        headerBits m = ((m.Opcode <<< 11) ||| m.Rcode)
          + 0x8000 * m.Response.toNat + 0x400 * m.Authoritative.toNat
          + 0x200 * m.Truncated.toNat + 0x100 * m.RecursionDesired.toNat
          + 0x80 * m.RecursionAvailable.toNat + 0x40 * m.Zero.toNat
          + 0x20 * m.AuthenticatedData.toNat + 0x10 * m.CheckingDisabled.toNat) := by
  constructor
  · have hv : validMsg ({ emptyMsg with
        Id := 0x1234
        RecursionDesired := true
        Question := [⟨[101, 120, 97, 109, 112, 108, 101, 46, 99, 111, 109, 46], 1, 1⟩] }) := by
      refine ⟨by decide, by decide, by decide, by decide, by decide, by decide, by decide,
        ?_, ?_, ?_, ?_, by decide⟩
      · intro q hq
        simp only [List.mem_singleton] at hq
        subst hq
        exact ⟨⟨[[101, 120, 97, 109, 112, 108, 101], [99, 111, 109]],
          by decide, by unfold wfLabels wfLabel; decide, by decide⟩, by decide, by decide⟩
      · intro r hr; simp [emptyMsg] at hr
      · intro r hr; simp [emptyMsg] at hr
      · intro r hr; simp [emptyMsg] at hr
    rw [Msg.Pack_eq hv]
    decide
  · intro m hop hrc
    have h1 : (m.Opcode <<< 11) ||| m.Rcode = 2048 * m.Opcode + m.Rcode := by
      rw [Nat.shiftLeft_eq, show (2 : Nat) ^ 11 = 2048 from by norm_num,
        or_eq_add_pow (k := 11) (by norm_num) (by omega)]
      ring
    rw [headerBits_sum hop hrc, h1]
    omega

/-- C2 (refuted — code bug): unpacking a message whose single DS record
declares `rdlength = 0xFFFF` reaching far past the 27-byte buffer drives the
`hex` case of `unpackStructValue` into the unguarded slice
`msg[off : off+rdlength-consumed]`, a Go slice-bounds panic (`none` in the
embedding) instead of a clean rejection. -/
theorem C2_ds_rdlength_overread :
    Msg.Unpack [0, 0, 0, 0, 0, 0, 0, 1, 0, 0, 0, 0,
      0, 0, 43, 0, 1, 0, 0, 0, 0, 255, 255, 0, 0, 1, 1] = none
    ∧ (27 : Nat) < 21 + (0xFFFF - 4) := ⟨by decide, by decide⟩

/-- C6: when the RR header unpacks with `ok = true`, an unregistered type code
yields the bare header at `end = off1 + rdlength` with `ok = true`; a
registered type whose full unpack stops at an offset other than `end` yields
the same bare header, `end`, `ok = true`; concretely for type code 99
(unknown) and for an A record with `rdlength = 6` (payload consumes 4). -/
theorem C6_bare_header_policy :
    (∀ (msg : Bytes) (off : Nat) (h : RR_Header) (off1 : Nat),
      unpackRRHeader msg off = some (h, off1, true) →
      rr_mk h.Rrtype = false →
      unpackRR msg off = some (some (h, none), off1 + h.Rdlength, true))
    ∧ (∀ (msg : Bytes) (off : Nat) (h h2 : RR_Header) (off1 : Nat) (rd : Rdata)
        (off2 : Nat) (ok2 : Bool),
      unpackRRHeader msg off = some (h, off1, true) →
      rr_mk h.Rrtype = true →
      unpackRRfull h.Rrtype msg off = some ((h2, rd), off2, ok2) →
      off2 ≠ off1 + h.Rdlength →
      unpackRR msg off = some (some (h, none), off1 + h.Rdlength, true))
    ∧ unpackRR [0, 0, 99, 0, 1, 0, 0, 0, 0, 0, 2, 7, 7] 0
        = some (some (⟨[], 99, 1, 0, 2⟩, none), 13, true)
    ∧ unpackRR [0, 0, 1, 0, 1, 0, 0, 0, 0, 0, 6, 1, 2, 3, 4, 5, 6] 0
        = some (some (⟨[], 1, 1, 0, 6⟩, none), 17, true) := by
  refine ⟨?_, ?_, by decide, by decide⟩
  · intro msg off h off1 hhdr hmk
    rw [unpackRR, hhdr]
    simp only []
    rw [if_neg (by simp), if_pos hmk]
  · intro msg off h h2 off1 rd off2 ok2 hhdr hmk hfull hne
    rw [unpackRR, hhdr]
    simp only []
    rw [if_neg (by simp), if_neg (by rw [hmk]; simp), hfull]
    simp only []
    rw [if_pos hne]

/-- C1 (amended): for every valid message, `Pack` succeeds with the
concatenated wire image and `Unpack` of that image succeeds and returns the
message with equal id, `Response`, `Authoritative`, `Truncated`,
`RecursionDesired`, `RecursionAvailable`, opcode and rcode and equal four
sections — but with `Zero`, `AuthenticatedData` and `CheckingDisabled` reset
to `false`, which refutes the claim's list of preserved header fields. -/
theorem C1_roundtrip_modulo_unassigned {m : Msg} (hv : validMsg m) :
    Msg.Pack m = some (wireMsg m, true)
    ∧ Msg.Unpack (wireMsg m)
        = some ({ m with Zero := false, AuthenticatedData := false, CheckingDisabled := false }, true) :=
  ⟨Msg.Pack_eq hv, Msg.Unpack_eq hv⟩

/-- C1 witness: the amended round trip at the concrete message with id 1 and
`Response = true`. -/
theorem C1_roundtrip_witness :
    Msg.Pack ({ emptyMsg with Id := 1, Response := true })
        = some (wireMsg ({ emptyMsg with Id := 1, Response := true }), true)
    ∧ Msg.Unpack (wireMsg ({ emptyMsg with Id := 1, Response := true }))
        = some ({ ({ emptyMsg with Id := 1, Response := true }) with
            Zero := false, AuthenticatedData := false, CheckingDisabled := false }, true) :=
  C1_roundtrip_modulo_unassigned
    ⟨by decide, by decide, by decide, by decide, by decide, by decide, by decide,
     by intro q hq; simp [emptyMsg] at hq,
     by intro r hr; simp [emptyMsg] at hr,
     by intro r hr; simp [emptyMsg] at hr,
     by intro r hr; simp [emptyMsg] at hr,
     by decide⟩

/-- C1 counterexample: the message with only `AuthenticatedData := true` set
is valid, packs, and unpacks to `emptyMsg` — the AD flag (and likewise `Zero`
and `CheckingDisabled`) is lost, so `Unpack(Pack(M))` does not preserve the
claimed header field list. -/
theorem C1_ad_flag_lost :
    Msg.Pack ({ emptyMsg with AuthenticatedData := true })
        = some (wireMsg ({ emptyMsg with AuthenticatedData := true }), true)
    ∧ Msg.Unpack (wireMsg ({ emptyMsg with AuthenticatedData := true }))
        = some (emptyMsg, true)
    ∧ emptyMsg ≠ { emptyMsg with AuthenticatedData := true } := by
  refine ⟨Msg.Pack_eq ⟨by decide, by decide, by decide, by decide, by decide, by decide,
    by decide,
    by intro q hq; simp [emptyMsg] at hq,
    by intro r hr; simp [emptyMsg] at hr,
    by intro r hr; simp [emptyMsg] at hr,
    by intro r hr; simp [emptyMsg] at hr,
    by decide⟩, by decide, by decide⟩

/-- C8 (amended): trailing bytes after a valid wire image never make `Unpack`
fail (they are only logged); and failure is sticky — a question or RR unpack
started at or past the end of the buffer fails with `off' = len(buf)`, so once
a record fails every later declared record fails too and the final `ok` is
`false` (shown concretely for a buffer that ends inside the RR header).  What
the original claim got wrong is the converse direction: a buffer ending
inside a declared rdata payload still unpacks with `ok = true` (see the
counterexample), because the offset-mismatch policy of `unpackRR` converts
the truncated record into a bare header at `end`. -/
theorem C8_trailing_tolerated_failure_sticky :
    (∀ (m : Msg) (extra : Bytes), validMsg m →
      Msg.Unpack (wireMsg m ++ extra)
        = some ({ m with Zero := false, AuthenticatedData := false, CheckingDisabled := false }, true))
    ∧ (∀ (n : Nat) (msg : Bytes) (b : Bool) (off : Nat), msg.length ≤ off → 0 < n →
        unpackQuestions msg n off b
          = some (List.replicate n question0, msg.length, false))
    ∧ (∀ (n : Nat) (msg : Bytes) (b : Bool) (off : Nat), msg.length ≤ off → 0 < n →
        unpackRRs msg n off b = some (List.replicate n none, msg.length, false))
    ∧ (Msg.Unpack [0, 0, 0, 0, 0, 0, 0, 1, 0, 0, 0, 0, 0, 0, 1]).map (fun p => p.2)
        = some false := by
  have hname : ∀ (msg : Bytes) (off : Nat), msg.length ≤ off →
      unpackDomainName msg off = some ([], msg.length, false) := by
    intro msg off hle
    rw [unpackDomainName, show dnFuel msg = (dnFuel msg - 1) + 1 from by rw [dnFuel]; omega,
      unpackDomainNameAux, if_pos hle]
  have hq1 : ∀ (msg : Bytes) (off : Nat), msg.length ≤ off →
      unpackQuestion msg off = some (question0, msg.length, false) := by
    intro msg off hle
    rw [unpackQuestion, hname msg off hle]
    simp
  have hr1 : ∀ (msg : Bytes) (off : Nat), msg.length ≤ off →
      unpackRR msg off = some (none, msg.length, false) := by
    intro msg off hle
    have hh : unpackRRHeader msg off = some (rrHeader0, msg.length, false) := by
      rw [unpackRRHeader, hname msg off hle]
      simp
    rw [unpackRR, hh]
    simp
  refine ⟨?_, ?_, ?_, by decide⟩
  · intro m extra hv
    exact Msg.Unpack_region hv (region_append.mp (region_refl (wireMsg m ++ extra))).1
  · intro n
    induction n with
    | zero => intro msg b off _ h0; exact absurd h0 (by omega)
    | succ k ih =>
      intro msg b off hle _
      rw [unpackQuestions, hq1 msg off hle]
      simp only []
      rcases Nat.eq_zero_or_pos k with hk | hk
      · subst hk
        rw [unpackQuestions]
        simp [List.replicate]
      · rw [ih msg false msg.length (le_refl _) hk]
        simp [List.replicate_succ]
  · intro n
    induction n with
    | zero => intro msg b off _ h0; exact absurd h0 (by omega)
    | succ k ih =>
      intro msg b off hle _
      rw [unpackRRs, hr1 msg off hle]
      simp only []
      rcases Nat.eq_zero_or_pos k with hk | hk
      · subst hk
        rw [unpackRRs]
        simp [List.replicate]
      · rw [ih msg false msg.length (le_refl _) hk]
        simp [List.replicate_succ]

theorem splitDots_nodot {cur : Bytes} (h : ∀ b ∈ cur, b ≠ 46) :
    splitDots cur = [cur] := by
  induction cur with
  | nil => rfl
  | cons b t ih =>
    have hb : b ≠ 46 := h b (List.mem_cons_self b t)
    rw [splitDots, if_neg hb, ih (fun x hx => h x (List.mem_cons_of_mem b hx))]

/-- The character loop fails (`off' = len(buf)`, `ok = false`) whenever a
label of 64 bytes or more reaches its closing dot; `cur` holds the bytes of
the label read so far. -/
theorem packSegs_long : ∀ (rest msg : Bytes) (off : Nat) (cur : Bytes),
    (∀ b ∈ cur, b ≠ 46) →
    (∃ l ∈ (splitDots (cur ++ rest)).dropLast, 64 ≤ l.length) →
    (packSegs msg off cur rest).2 = (msg.length, false) := by
  intro rest
  induction rest with
  | nil =>
    intro msg off cur hcur hex
    obtain ⟨l, hl, _⟩ := hex
    rw [List.append_nil, splitDots_nodot hcur] at hl
    simp at hl
  | cons b t ih =>
    intro msg off cur hcur hex
    by_cases hb : b = 46
    · subst hb
      rw [packSegs, if_pos rfl]
      by_cases hlen : 64 ≤ cur.length
      · rw [if_pos hlen]
      · rw [if_neg hlen]
        have hrec := ih (writeBytes msg off (cur.length :: cur)) (off + 1 + cur.length)
          [] (by simp) (by
            rw [List.nil_append]
            rw [splitDots_append_dot hcur,
              List.dropLast_cons_of_ne_nil (splitDots_ne_nil t)] at hex
            obtain ⟨l, hl, hll⟩ := hex
            rcases List.mem_cons.mp hl with hl | hl
            · subst hl; exact absurd hll hlen
            · exact ⟨l, hl, hll⟩)
        rw [length_writeBytes] at hrec
        exact hrec
    · rw [packSegs, if_neg hb]
      apply ih _ _ (cur ++ [b])
        (by intro x hx
            rcases List.mem_append.mp hx with hx | hx
            · exact hcur x hx
            · simp at hx; subst hx; exact hb)
      rw [List.append_assoc, List.singleton_append]
      exact hex

/-- C5 (amended): `packDomainName` fails with `ok = false`, `off' = len(buf)`
for every name with a label of 64 bytes or more and for every name the buffer
lacks space for — but it performs no 255-byte total-name check (see the
counterexample), so only the label bound and the space bound hold. -/
theorem C5_label_bound_and_space :
    (∀ (s msg : Bytes) (off : Nat),
      (∃ l ∈ labelsOf (if s.getLast? = some 46 then s else s ++ [46]), 64 ≤ l.length) →
      (packDomainName s msg off).2 = (msg.length, false))
    ∧ (∀ (s msg : Bytes) (off : Nat),
      msg.length < off + (if s.getLast? = some 46 then s else s ++ [46]).length + 1 →
      (packDomainName s msg off).2 = (msg.length, false))
    ∧ (packDomainName (List.replicate 64 97 ++ [46]) (List.replicate 200 0) 0).2
        = (200, false) := by
  refine ⟨?_, ?_, by decide⟩
  · intro s msg off hex
    rw [labelsOf] at hex
    rw [packDomainName]
    simp only []
    by_cases hsp : off + ((if s.getLast? = some 46 then s else s ++ [46]).length + 1)
        > msg.length
    · rw [if_pos hsp]
    · rw [if_neg hsp]
      have hr2 : (packSegs msg off []
          (if s.getLast? = some 46 then s else s ++ [46])).2 = (msg.length, false) := by
        apply packSegs_long _ msg off [] (by simp)
        rw [List.nil_append]
        exact hex
      rw [if_neg (by rw [hr2]; simp)]
      exact hr2
  · intro s msg off hsp
    rw [packDomainName]
    simp only []
    rw [if_pos (by omega)]

/-- C5 counterexample: a name of 52 four-byte labels packs to a 261-byte wire
name (> 255) with `ok = true` — the source has no total-length check. -/
theorem C5_total_length_unchecked :
    (packDomainName ((List.replicate 52 ([97, 97, 97, 97, 46] : Bytes)).flatten)
        (List.replicate 300 0) 0).2 = (261, true)
    ∧ (255 : Nat) < 261 := ⟨by decide, by decide⟩

/-- A label as `packDomainName` constrains it: below 64 bytes and dot-free —
emptiness is *not* checked (the point of C10). -/
def wfLabelLoose (l : Bytes) : Prop := l.length ≤ 63 ∧ ∀ b ∈ l, b ≠ 46

theorem dotted_append : ∀ (A B : List Bytes), dotted (A ++ B) = dotted A ++ dotted B := by
  intro A B
  induction A with
  | nil => rfl
  | cons l A ih => simp [dotted, ih]

theorem wireN_append_empty (L1 L2 : List Bytes) :
    wireN (L1 ++ [] :: L2) = wireN L1 ++ wireN L2 := by
  simp [wireN, List.map_append, List.flatten_append]

/-- `packSegs_dotted` without the nonemptiness requirement on labels: the
loop never checks that a label is nonempty, an empty label just emits its
zero length byte. -/
theorem packSegs_dotted_loose : ∀ (L : List Bytes) (msg : Bytes) (off : Nat),
    (∀ l ∈ L, wfLabelLoose l) → off + (wireN L).length ≤ msg.length →
    packSegs msg off [] (dotted L)
      = (writeBytes msg off ((L.map (fun l => l.length :: l)).flatten),
          off + (dotted L).length, true) := by
  intro L
  induction L with
  | nil =>
    intro msg off _ _
    rw [dotted, packSegs, List.map_nil, List.flatten_nil, writeBytes]
    rfl
  | cons l L ih =>
    intro msg off hwf hle
    obtain ⟨hl2, hl3⟩ := hwf l (List.mem_cons_self l L)
    rw [dotted, packSegs_accum l msg off [] _ hl3, List.nil_append, packSegs,
      if_pos rfl, if_neg (by omega)]
    have hlen : (wireN (l :: L)).length = (1 + l.length) + (wireN L).length := by
      rw [wireN_cons, List.length_append, List.length_cons]; omega
    rw [ih (writeBytes msg off (l.length :: l)) (off + 1 + l.length)
      (fun x hx => hwf x (List.mem_cons_of_mem l hx))
      (by rw [length_writeBytes]; omega)]
    rw [List.map_cons, List.flatten_cons]
    rw [show writeBytes (writeBytes msg off (l.length :: l)) (off + 1 + l.length)
          (L.map (fun l => l.length :: l)).flatten
        = writeBytes msg off ((l.length :: l) ++ (L.map (fun l => l.length :: l)).flatten) by
      rw [writeBytes_append]
      rw [List.length_cons]
      rw [show off + (l.length + 1) = off + 1 + l.length from by omega]]
    rw [List.length_append, List.length_cons]
    rw [show off + 1 + l.length + (dotted L).length = off + (l.length + ((dotted L).length + 1)) from by omega]

/-- `packDomainName_eq` for loose labels (empty labels allowed). -/
theorem packDomainName_eq_loose {L : List Bytes} (hne : L ≠ [])
    (hroot : dotted L ≠ [46]) (hwf : ∀ l ∈ L, wfLabelLoose l)
    {msg : Bytes} {off : Nat} (hle : off + (wireN L).length ≤ msg.length) :
    packDomainName (dotted L) msg off
      = (writeBytes msg off (wireN L), off + (wireN L).length, true) := by
  have hlast : (dotted L).getLast? = some 46 := getLast?_dotted hne
  have hlen := length_wireN L
  unfold packDomainName
  simp only []
  rw [if_pos hlast]
  rw [if_neg (by omega)]
  rw [packSegs_dotted_loose L msg off hwf hle]
  rw [if_pos rfl, if_neg hroot]
  have hset : (writeBytes msg off ((L.map (fun l => l.length :: l)).flatten)).set
        (off + (dotted L).length) 0
      = writeBytes msg off (wireN L) := by
    have : ((L.map (fun l => l.length :: l)).flatten).length = (dotted L).length := by
      have := length_wireN L
      rw [wireN, List.length_append, List.length_cons, List.length_nil] at this
      omega
    rw [wireN, writeBytes_append]
    rw [this]
    rfl
  rw [hset, hlen, Nat.add_assoc]

/-- C10: a name with an empty label — `dotted (L1 ++ [] :: L2)`, e.g.
`"a..b."` — packs with `ok = true`: the empty label emits a bare zero length
byte (the wire image is `wireN L1 ++ wireN L2`, the zero ending `wireN L1`
sitting at the empty label's position); since `0x00` terminates a wire name,
unpacking the packed bytes stops there and returns `dotted L1`, a strict
prefix of the original name.  Concretely for `"a..b."`. -/
theorem C10_empty_label_prefix :
    (∀ (L1 L2 : List Bytes) (msg : Bytes) (off : Nat),
      L1 ≠ [] → wfLabels L1 → wfLabels L2 →
      off + (wireN L1).length + (wireN L2).length ≤ msg.length →
      packDomainName (dotted (L1 ++ [] :: L2)) msg off
          = (writeBytes msg off (wireN L1 ++ wireN L2),
             off + (wireN L1).length + (wireN L2).length, true)
      ∧ unpackDomainName (writeBytes msg off (wireN L1 ++ wireN L2)) off
          = some (dotted L1, off + (wireN L1).length, true)
      ∧ List.IsPrefix (dotted L1) (dotted (L1 ++ [] :: L2))
      ∧ dotted L1 ≠ dotted (L1 ++ [] :: L2))
    ∧ packDomainName [97, 46, 46, 98, 46] (List.replicate 20 7) 0
        = ([1, 97, 0, 1, 98, 0, 7, 7, 7, 7, 7, 7, 7, 7, 7, 7, 7, 7, 7, 7], 6, true)
    ∧ unpackDomainName [1, 97, 0, 1, 98, 0, 7, 7, 7, 7, 7, 7, 7, 7, 7, 7, 7, 7, 7, 7] 0
        = some ([97, 46], 3, true) := by
  refine ⟨?_, by decide, by decide⟩
  intro L1 L2 msg off hne1 hwf1 hwf2 hle
  have hM : dotted (L1 ++ [] :: L2) = dotted L1 ++ 46 :: dotted L2 := by
    rw [dotted_append, dotted, List.nil_append]
  have hwire := wireN_append_empty L1 L2
  have hd1pos : 0 < (dotted L1).length := List.length_pos.mpr (dotted_ne_nil hne1)
  refine ⟨?_, ?_, ⟨46 :: dotted L2, hM.symm⟩, ?_⟩
  · have hp := packDomainName_eq_loose (L := L1 ++ [] :: L2) (by simp)
      (by
        rw [hM]
        intro hc
        have h1 : (dotted L1).length + ((dotted L2).length + 1) = 1 := by
          have := congrArg List.length hc
          simpa using this
        omega)
      (by
        intro l hl
        rcases List.mem_append.mp hl with hl | hl
        · obtain ⟨_, h2, h3⟩ := hwf1 l hl
          exact ⟨h2, fun b hb => (h3 b hb).2⟩
        · rcases List.mem_cons.mp hl with hl | hl
          · subst hl; exact ⟨by simp, by simp⟩
          · obtain ⟨_, h2, h3⟩ := hwf2 l hl
            exact ⟨h2, fun b hb => (h3 b hb).2⟩)
      (show off + (wireN (L1 ++ [] :: L2)).length ≤ msg.length by
        rw [hwire, List.length_append]; omega)
    rw [hwire] at hp
    rw [hp, List.length_append, Nat.add_assoc]
  · have hreg : region (writeBytes msg off (wireN L1 ++ wireN L2)) off (wireN L1) := by
      have h0 := @region_of_writeBytes msg off (wireN L1 ++ wireN L2)
        (by rw [List.length_append]; omega)
      exact (region_append.mp h0).1
    exact unpackDomainName_eq hwf1 hreg
  · intro hc
    have := congrArg List.length hc
    rw [hM] at this
    simp only [List.length_append, List.length_cons] at this
    omega

/-- C8 counterexample: a 23-byte buffer declaring one answer whose A record
claims `rdlength = 255` — the record's declared end `12 + 11 + 255` lies far
past the buffer — still unpacks with `ok = true`, as a bare header. -/
theorem C8_truncated_rdata_accepted :
    Msg.Unpack [0, 0, 0, 0, 0, 0, 0, 1, 0, 0, 0, 0, 0, 0, 1, 0, 1, 0, 0, 0, 0, 0, 255]
      = some (msgOfParts ⟨0, 0, 0, 1, 0, 0⟩ [] [some (⟨[], 1, 1, 0, 255⟩, none)] [] [], true)
    ∧ (23 : Nat) < 12 + 11 + 255 := ⟨by decide, by decide⟩

end DnsCodec
